import Mathlib

/-!
# Chat history manager

A shallow embedding of `ChatHistoryManager` (per-channel history of sent
messages with JSON persistence) together with the properties established
about it.

Conventions of the embedding:

* a `QString` is the list of its characters, a `QStringList` a list of strings;
* `QHash<QString, QStringList>` is an association list with unique keys
  (`AList`); the iteration order of a hash is unspecified in Qt, here it is the
  order of the underlying list;
* JSON values are an inductive type; numbers carry their mathematical value;
* the clock of the event loop is passed explicitly (`now`, in milliseconds) to
  the operations that start a timer;
* the per-character case folding table of Qt is a parameter `fold`.
-/

namespace chatterino

/-! ## Qt value types -/

/-- A string: the sequence of its characters. -/
abbrev QString := List Char

/-- A list of strings, as `QStringList`. -/
abbrev QStringList := List QString

/-- Whitespace test of `QChar::isSpace`: the ASCII blanks, NEL, no-break space
and the characters of the Unicode separator categories. -/
def QChar.isSpace (c : Char) : Bool :=
  let u := c.toNat
  u == 0x20 || (0x09 ≤ u && u ≤ 0x0d) || u == 0x85 || u == 0xa0 || u == 0x1680 ||
    (0x2000 ≤ u && u ≤ 0x200a) || u == 0x2028 || u == 0x2029 || u == 0x202f ||
    u == 0x205f || u == 0x3000

/-- Removal of leading and trailing whitespace, as `QString::trimmed`. -/
def QString.trimmed (s : QString) : QString :=
  ((s.dropWhile QChar.isSpace).reverse.dropWhile QChar.isSpace).reverse

/-- Does `needle` match at the very start of `hay`, comparing folded characters. -/
def QString.startsWithFolded (fold : Char → Char) : QString → QString → Bool
  | _, [] => true
  | [], _ :: _ => false
  | h :: hs, n :: ns => fold h == fold n && QString.startsWithFolded fold hs ns

/-- Case-insensitive `QString::contains`: some position of `hay` starts a
match of `needle` (an empty needle matches everywhere). -/
def QString.contains (fold : Char → Char) : QString → QString → Bool
  | [], needle => QString.startsWithFolded fold [] needle
  | h :: hs, needle =>
    QString.startsWithFolded fold (h :: hs) needle || QString.contains fold hs needle

/-! ## Timers -/

/-- The scheduling state of a `QTimer`: its interval, whether it is single
shot, whether it is running, and (while running) the time of its next timeout. -/
structure QTimer where
  interval : Nat := 0
  singleShot : Bool := false
  active : Bool := false
  deadline : Nat := 0
deriving DecidableEq, Repr

/-- Stops the timer. -/
def QTimer.stop (t : QTimer) : QTimer :=
  { t with active := false }

/-- Sets the single-shot flag. -/
def QTimer.setSingleShot (t : QTimer) (b : Bool) : QTimer :=
  { t with singleShot := b }

/-- Sets the interval; a running timer is restarted with the new interval. -/
def QTimer.setInterval (t : QTimer) (now msec : Nat) : QTimer :=
  { t with interval := msec, deadline := if t.active then now + msec else t.deadline }

/-- Starts (or restarts) the timer: the next timeout is one interval from now. -/
def QTimer.start (t : QTimer) (now : Nat) : QTimer :=
  { t with active := true, deadline := now + t.interval }

/-! ## The hash of histories -/

/-- The type of `history_`: channel name to list of messages, unique keys. -/
abbrev QHash := AList (fun _ : QString => QStringList)

/-- Const lookup `QHash::value`: the stored list, or a default-constructed
(empty) list when the key is absent. -/
def QHash.value (h : QHash) (key : QString) : QStringList :=
  match h.lookup key with
  | some messages => messages
  | none => []

/-- Non-const `operator[]`: the hash after inserting a default-constructed
value for an absent key, and the value now stored under the key. -/
def QHash.subscript (h : QHash) (key : QString) : QHash × QStringList :=
  match h.lookup key with
  | some messages => (h, messages)
  | none => (h.insert key [], [])

/-! ## JSON -/

/-- A JSON value as held by `QJsonValue`. The members of an object are kept as
a list of key/value pairs; a number carries its mathematical value. -/
inductive QJsonValue where
  | null
  | bool (b : Bool)
  | number (q : ℚ)
  | string (s : QString)
  | array (items : List QJsonValue)
  | object (members : List (QString × QJsonValue))
  | undefined

/-- The members of a JSON object. -/
abbrev QJsonObject := List (QString × QJsonValue)

/-- Conversion `QJsonValue::toInt`: the number when it is integral and fits a
32-bit `int`, the default value otherwise. -/
def QJsonValue.toInt (v : QJsonValue) (defaultValue : Int) : Int :=
  match v with
  | .number q =>
    if q.den = 1 ∧ -(2 : Int) ^ 31 ≤ q.num ∧ q.num < (2 : Int) ^ 31 then q.num else defaultValue
  | _ => defaultValue

/-- Conversion `QJsonValue::toObject`: empty unless the value is an object. -/
def QJsonValue.toObject : QJsonValue → QJsonObject
  | .object members => members
  | _ => []

/-- Conversion `QJsonValue::toArray`: empty unless the value is an array. -/
def QJsonValue.toArray : QJsonValue → List QJsonValue
  | .array items => items
  | _ => []

/-- Conversion `QJsonValue::toString`: empty unless the value is a string. -/
def QJsonValue.toString : QJsonValue → QString
  | .string s => s
  | _ => []

/-- Lookup `object[key]`: the member, or null when there is none. -/
def QJsonObject.subscript (o : QJsonObject) (key : QString) : QJsonValue :=
  match o.lookup key with
  | some v => v
  | none => .null

/-- Assignment `object[key] = value`: replaces the member of that key. The
position of the member among the others is immaterial. -/
def QJsonObject.set (o : QJsonObject) (key : QString) (value : QJsonValue) : QJsonObject :=
  o.filter (fun member => !(member.1 == key)) ++ [(key, value)]

/-- A parsed document, as `QJsonDocument`: null when parsing failed. -/
inductive QJsonDocument where
  | null
  | array (items : List QJsonValue)
  | object (root : QJsonObject)

/-- Test `QJsonDocument::isObject`. -/
def QJsonDocument.isObject : QJsonDocument → Bool
  | .object _ => true
  | _ => false

/-- Accessor `QJsonDocument::object`: empty unless the document is an object. -/
def QJsonDocument.toObject : QJsonDocument → QJsonObject
  | .object root => root
  | _ => []

/-- What `load` finds at `historyFilePath_`: no file, a file that cannot be
opened, or a file whose bytes parse to the given document. -/
inductive HistoryFile where
  | missing
  | unreadable
  | data (doc : QJsonDocument)

/-! ## ChatHistoryManager -/

/-- Maximum number of messages to store per channel. -/
def MAX_HISTORY_PER_CHANNEL : Nat := 5000

/-- The members of `ChatHistoryManager`. -/
structure ChatHistoryManager where
  history_ : QHash
  historyFilePath_ : QString
  saveTimer_ : QTimer
  debouncedSaveTimer_ : QTimer
  debouncedSaveConnected_ : Bool

/-- The manager before its constructor body runs: no history, idle timers. -/
def ChatHistoryManager.initial (path : QString) : ChatHistoryManager :=
  { history_ := ∅
    historyFilePath_ := path
    saveTimer_ := {}
    debouncedSaveTimer_ := {}
    debouncedSaveConnected_ := false }

/-- The loop `while (messages.size() > MAX_HISTORY_PER_CHANNEL) removeFirst()`,
with one unit of fuel per iteration. -/
def enforceMaximumLoop : Nat → QStringList → QStringList
  | 0, messages => messages
  | fuel + 1, messages =>
    if MAX_HISTORY_PER_CHANNEL < messages.length then enforceMaximumLoop fuel messages.tail
    else messages

/-- The eviction loop run with as much fuel as the list is long. -/
def enforceMaximum (messages : QStringList) : QStringList :=
  enforceMaximumLoop messages.length messages

/-- The method `ChatHistoryManager::addMessage`, called at time `now`. -/
def addMessage (s : ChatHistoryManager) (now : Nat) (channelName message : QString) :
    ChatHistoryManager :=
  if channelName.isEmpty || (QString.trimmed message).isEmpty then s
  else
    let (history, messages) := QHash.subscript s.history_ channelName
    if !messages.isEmpty && messages.getLast? == some message then
      { s with history_ := history }
    else
      let messages := enforceMaximum (messages ++ [message])
      let timer := s.debouncedSaveTimer_.stop
      let timer := timer.setSingleShot true
      let timer := timer.setInterval now 5000
      { s with
        history_ := history.insert channelName messages
        debouncedSaveTimer_ := timer.start now
        debouncedSaveConnected_ := true }

/-- The method `ChatHistoryManager::getMessages`. -/
def getMessages (s : ChatHistoryManager) (channelName : QString) : QStringList :=
  QHash.value s.history_ channelName

/-- One iteration of the scan of `getFiltered` on the message `msg`; the state
is the result list and the set of texts seen. -/
def getFilteredStep (fold : Char → Char) (searchText msg : QString)
    (st : QStringList × List QString) : QStringList × List QString :=
  let matches_ := QString.contains fold msg searchText
  if matches_ && !st.2.contains msg then (msg :: st.1, msg :: st.2) else st

/-- The loop `for (int i = messages.size() - 1; i >= 0; --i)` of `getFiltered`:
the first argument is `i + 1`. -/
def getFilteredLoop (fold : Char → Char) (messages : QStringList) (searchText : QString) :
    Nat → QStringList × List QString → QStringList × List QString
  | 0, st => st
  | i + 1, st =>
    getFilteredLoop fold messages searchText i
      (getFilteredStep fold searchText (messages.getD i []) st)

/-- The method `ChatHistoryManager::getFiltered`. -/
def getFiltered (fold : Char → Char) (s : ChatHistoryManager) (channelName searchText : QString) :
    QStringList :=
  let messages := QHash.value s.history_ channelName
  if searchText.isEmpty then messages
  else (getFilteredLoop fold messages searchText messages.length ([], [])).1

/-- The `channels` object built by the loop of `save` over `history_`. -/
def saveChannels (history : QHash) : QJsonObject :=
  history.entries.foldl
    (fun channels it =>
      let messagesArray := it.2.foldl (fun arr msg => arr ++ [QJsonValue.string msg]) []
      QJsonObject.set channels it.1 (.array messagesArray))
    []

/-- The JSON document built by `save`. -/
def saveDocument (s : ChatHistoryManager) : QJsonDocument :=
  let root : QJsonObject := QJsonObject.set [] "version".toList (.number 1)
  let channels : QJsonObject := saveChannels s.history_
  .object (QJsonObject.set root "channels".toList (.object channels))

/-- The method `ChatHistoryManager::save`: the file afterwards, given whether
opening and committing the `QSaveFile` succeed. -/
def save (s : ChatHistoryManager) (opens commits : Bool) (file : HistoryFile) : HistoryFile :=
  if !opens then file
  else if !commits then file
  else .data (saveDocument s)

/-- The messages read from one array of the `channels` object by `load`:
non-empty strings are kept, then the maximum is enforced. -/
def loadMessages (messagesArray : List QJsonValue) : QStringList :=
  let messages := messagesArray.foldl
    (fun messages msgVal =>
      let msg := msgVal.toString
      if !msg.isEmpty then messages ++ [msg] else messages)
    []
  enforceMaximum messages

/-- The method `ChatHistoryManager::load`, on what is found at the file path. -/
def load (s : ChatHistoryManager) (file : HistoryFile) : ChatHistoryManager :=
  match file with
  | .missing => s
  | .unreadable => s
  | .data doc =>
    if !doc.isObject then s
    else
      let root := doc.toObject
      let version := (QJsonObject.subscript root "version".toList).toInt 0
      if version != 1 then s
      else
        let channels := (QJsonObject.subscript root "channels".toList).toObject
        { s with
          history_ := channels.foldl
            (fun history it => history.insert it.1 (loadMessages it.2.toArray))
            s.history_ }

/-- The constructor `ChatHistoryManager::ChatHistoryManager`, run at time `now`. -/
def ChatHistoryManager.construct (path : QString) (file : HistoryFile) (now : Nat) :
    ChatHistoryManager :=
  let s := load (ChatHistoryManager.initial path) file
  { s with saveTimer_ := (s.saveTimer_.setInterval now (60 * 1000)).start now }

/-- The states reachable from a manager without history by calls of `addMessage`
and by calls of `load` on files satisfying `allowed`. -/
inductive Reachable (allowed : HistoryFile → Prop) : ChatHistoryManager → Prop where
  | initial (path : QString) : Reachable allowed (ChatHistoryManager.initial path)
  | addMessage {s : ChatHistoryManager} (now : Nat) (channelName message : QString) :
      Reachable allowed s → Reachable allowed (addMessage s now channelName message)
  | load {s : ChatHistoryManager} (file : HistoryFile) :
      allowed file → Reachable allowed s → Reachable allowed (load s file)

/-! ## Derived definitions used in the statements -/

/-- The log of the addressed channel after an accepted call of `addMessage`:
unchanged when its last entry is the message, otherwise the message is
appended and the maximum enforced. -/
def logAfterAdd (log : QStringList) (message : QString) : QStringList :=
  if log.getLast? = some message then log else enforceMaximum (log ++ [message])

/-- The channels object that `load` iterates over in an accepted document. -/
def documentChannels (doc : QJsonDocument) : QJsonObject :=
  (QJsonObject.subscript doc.toObject "channels".toList).toObject

/-- The version that `load` reads from a document. -/
def documentVersion (doc : QJsonDocument) : Int :=
  (QJsonObject.subscript doc.toObject "version".toList).toInt 0

/-- The non-empty strings of a JSON array, in order. -/
def storedStrings (messagesArray : List QJsonValue) : QStringList :=
  (messagesArray.map QJsonValue.toString).filter (fun msg => !msg.isEmpty)

/-- A file all of whose channel arrays, restricted to their non-empty strings,
have no two adjacent equal entries. -/
def NoAdjacentDuplicates (file : HistoryFile) : Prop :=
  ∀ doc, file = .data doc →
    ∀ it ∈ documentChannels doc, (storedStrings it.2.toArray).Chain' (· ≠ ·)

/-- The scan of `getFiltered` applied to a log: what `getFiltered` returns for
a non-empty search text on a channel holding `messages`. -/
def filterLog (fold : Char → Char) (messages : QStringList) (searchText : QString) :
    QStringList :=
  (getFilteredLoop fold messages searchText messages.length ([], [])).1

/-- Specification of the filter: the subsequence of the log that keeps an
entry when it satisfies `p` and does not occur again later in the log. -/
def lastOccurrences (p : QString → Bool) : QStringList → QStringList
  | [] => []
  | m :: rest =>
    if p m = true ∧ m ∉ rest then m :: lastOccurrences p rest else lastOccurrences p rest

/-- Calls `addMessage` on the channel once per element of `calls`, in order;
an element is the time of the call and the message. -/
def addMessages (s : ChatHistoryManager) (channelName : QString)
    (calls : List (Nat × QString)) : ChatHistoryManager :=
  calls.foldl (fun s call => addMessage s call.1 channelName call.2) s

/-- The member of the `channels` object written for one entry of the hash. -/
def channelMember (it : Sigma (fun _ : QString => QStringList)) : QString × QJsonValue :=
  (it.1, .array (it.2.map QJsonValue.string))

/-- A document holding the log `a, a` for the channel `c`. -/
def duplicateDocument : QJsonDocument :=
  .object [("version".toList, .number 1),
    ("channels".toList, .object [("c".toList, .array [.string "a".toList, .string "a".toList])])]

/-- A document holding the log `a, b, a` for the channel `c`. -/
def sampleDocument : QJsonDocument :=
  .object [("version".toList, .number 1),
    ("channels".toList,
      .object [("c".toList,
        .array [.string "a".toList, .number 7, .string "b".toList, .string [],
          .string "a".toList])])]

/-- Specification of what `load` keeps of a JSON array: the elements that are
strings and are not empty, in order. -/
def nonEmptyStrings : List QJsonValue → QStringList
  | [] => []
  | .string msg :: rest =>
    if msg = [] then nonEmptyStrings rest else msg :: nonEmptyStrings rest
  | _ :: rest => nonEmptyStrings rest

/-- A version-1 document without any channel. -/
def emptyChannelsDocument : QJsonDocument :=
  .object [("version".toList, .number 1), ("channels".toList, .object [])]

/-- The debounce timer as `addMessage` leaves it when it appends at time `now`:
single shot, running, timing out one interval of 5000 ms later. -/
def armedAt (now : Nat) : QTimer :=
  { interval := 5000, singleShot := true, active := true, deadline := now + 5000 }

/-- The warnings that `load` logs with `qCWarning`. -/
inductive LoadWarning where
  | openFailed
  | invalidFormat
  | unknownVersion (version : Int)
deriving DecidableEq, Repr

/-- The warning logged by `load`, if any: the control flow of `load` with the
`qCWarning` of each early return. -/
def loadWarning (file : HistoryFile) : Option LoadWarning :=
  match file with
  | .missing => none
  | .unreadable => some .openFailed
  | .data doc =>
    if !doc.isObject then some .invalidFormat
    else
      let root := doc.toObject
      let version := (QJsonObject.subscript root "version".toList).toInt 0
      if version != 1 then some (.unknownVersion version)
      else none

/-- A file none of whose channel arrays holds a string that is empty after
trimming, apart from the empty strings that `load` drops. -/
def NoWhitespaceOnlyStrings (file : HistoryFile) : Prop :=
  ∀ doc, file = .data doc →
    ∀ it ∈ documentChannels doc, ∀ m ∈ nonEmptyStrings it.2.toArray, QString.trimmed m ≠ []

/-- A version-1 document whose array for the channel `c` holds one blank. -/
def blankDocument : QJsonDocument :=
  .object [("version".toList, .number 1),
    ("channels".toList, .object [("c".toList, .array [.string " ".toList])])]

/-- One call of `addMessage` in a run of the event loop: the time of the call
(in milliseconds) and its arguments. -/
structure Call where
  time : Nat
  channelName : QString
  message : QString

/-- The event loop reaching the time `upTo`, as far as the debounce timer is
concerned: a running timer whose deadline has been reached times out; a
single-shot timer times out once and stops, a repeating one times out every
interval (once, when the interval is 0) and stays running. The slot connected
to the timeout calls `save`. The result is the state and the times at which the
timer made `save` run. -/
def elapse (s : ChatHistoryManager) (upTo : Nat) : ChatHistoryManager × List Nat :=
  let timer := s.debouncedSaveTimer_
  if timer.active && decide (timer.deadline ≤ upTo) then
    if timer.singleShot then
      ({ s with debouncedSaveTimer_ := timer.stop },
        if s.debouncedSaveConnected_ then [timer.deadline] else [])
    else
      let count := if timer.interval = 0 then 1 else (upTo - timer.deadline) / timer.interval + 1
      let timeouts := (List.range count).map (fun i => timer.deadline + i * timer.interval)
      ({ s with debouncedSaveTimer_ :=
            { timer with deadline := timer.deadline + count * timer.interval } },
        if s.debouncedSaveConnected_ then timeouts else [])
  else (s, [])

/-- The calls of `rest` made in order, each at its time, the event loop running
in between and then up to the time `horizon`: the final state and the times of
the flushes made by the debounce timer. -/
def afterCalls : ChatHistoryManager → List Call → Nat → ChatHistoryManager × List Nat
  | s, [], horizon => elapse s horizon
  | s, call :: rest, horizon =>
    let waited := elapse s call.time
    let done := afterCalls (addMessage waited.1 call.time call.channelName call.message)
      rest horizon
    (done.1, waited.2 ++ done.2)

/-- A burst of calls observed from its first call on: the first call, then the
remaining ones, then the event loop up to `horizon`. -/
def burst (s : ChatHistoryManager) (first : Call) (rest : List Call) (horizon : Nat) :
    ChatHistoryManager × List Nat :=
  afterCalls (addMessage s first.time first.channelName first.message) rest horizon

/-- The time of the last call of a burst. -/
def lastTime (first : Call) : List Call → Nat
  | [] => first.time
  | call :: rest => lastTime call rest

/-- The arguments of a call are valid: the channel name is not empty and the
message is not empty after trimming. -/
def validArguments (call : Call) : Prop :=
  call.channelName ≠ [] ∧ QString.trimmed call.message ≠ []

/-- Two successive calls follow each other by less than the debounce interval. -/
def closelySpaced (a b : Call) : Prop :=
  a.time ≤ b.time ∧ b.time < a.time + 5000

/-- The call appends to its channel's log in the state `s`: its arguments are
valid and the message is not the last entry of the log. -/
def appends (s : ChatHistoryManager) (call : Call) : Prop :=
  validArguments call ∧ (getMessages s call.channelName).getLast? ≠ some call.message

/-- Every call of the list appends, in the state in which `afterCalls` makes it. -/
def allAppend : ChatHistoryManager → List Call → Prop
  | _, [] => True
  | s, call :: rest =>
    appends (elapse s call.time).1 call
      ∧ allAppend
          (addMessage (elapse s call.time).1 call.time call.channelName call.message) rest

/-- Lower-casing `QString::toLower`, with the per-character table `lower`. -/
def QString.toLower (lower : Char → Char) (s : QString) : QString :=
  s.map lower

/-- The search of `indexOf` over the rest of the string that starts at the
position `p`: the first position from `p` on at which `needle` starts. -/
def QString.indexOfFrom (needle : QString) : QString → Nat → Option Nat
  | [], p => if QString.startsWithFolded id [] needle then some p else none
  | h :: hs, p =>
    if QString.startsWithFolded id (h :: hs) needle then some p
    else QString.indexOfFrom needle hs (p + 1)

/-- Case-sensitive `QString::indexOf(needle, from)`: the first position at or
after `start` at which `needle` occurs; `none` stands for -1. -/
def QString.indexOf (hay needle : QString) (start : Nat) : Option Nat :=
  if start ≤ hay.length then QString.indexOfFrom needle (hay.drop start) start else none

/-- Substring `QString::mid(position, n)`. -/
def QString.mid (s : QString) (position n : Nat) : QString :=
  (s.drop position).take n

/-- One call of `drawText` made by `paint`: the horizontal position, the text,
and whether the highlight rectangle was filled behind it. -/
structure Segment where
  highlighted : Bool
  x : Int
  text : QString
deriving DecidableEq, Repr

/-- The loop `while (pos < displayText.length())` of `MessageHistoryItem::paint`,
with one unit of fuel per iteration: the segments drawn from the position `pos`
and the horizontal position `x` on, or `none` when the fuel runs out.
`advance` is `QFontMetrics::horizontalAdvance`. -/
def paintLoop (advance : QString → Int) (displayText lowerDisplay lowerSearch : QString)
    (termLength : Nat) : Nat → Nat → Int → Option (List Segment)
  | 0, pos, _ => if pos < displayText.length then none else some []
  | fuel + 1, pos, x =>
    if pos < displayText.length then
      match QString.indexOf lowerDisplay lowerSearch pos with
      | none => some [⟨false, x, displayText.drop pos⟩]
      | some matchPos =>
        let before := QString.mid displayText pos (matchPos - pos)
        let drawnBefore : List Segment := if matchPos > pos then [⟨false, x, before⟩] else []
        let x := if matchPos > pos then x + advance before else x
        let matched := QString.mid displayText matchPos termLength
        match paintLoop advance displayText lowerDisplay lowerSearch termLength fuel
            (matchPos + termLength) (x + advance matched) with
        | some rest => some (drawnBefore ++ ⟨true, x, matched⟩ :: rest)
        | none => none
    else some []

/-- The texts drawn by `MessageHistoryItem::paint` for the elided text
`displayText`, starting at the left edge `left` of the text rectangle. The loop
gets one unit of fuel per character of the text. -/
def paint (lower : Char → Char) (advance : QString → Int) (displayText searchTerm : QString)
    (left : Int) : Option (List Segment) :=
  if searchTerm.isEmpty then some [⟨false, left, displayText⟩]
  else
    let lowerDisplay := QString.toLower lower displayText
    let lowerSearch := QString.toLower lower searchTerm
    paintLoop advance displayText lowerDisplay lowerSearch searchTerm.length
      displayText.length 0 left

/-! ## Lemmas on the eviction loop -/

theorem enforceMaximumLoop_eq_drop (fuel : Nat) :
    ∀ messages : QStringList, messages.length - MAX_HISTORY_PER_CHANNEL ≤ fuel →
      enforceMaximumLoop fuel messages
        = messages.drop (messages.length - MAX_HISTORY_PER_CHANNEL) := by
  induction fuel with
  | zero =>
    intro messages h
    have h0 : messages.length - MAX_HISTORY_PER_CHANNEL = 0 := by omega
    simp [enforceMaximumLoop, h0]
  | succ fuel ih =>
    intro messages h
    unfold enforceMaximumLoop
    split
    · rename_i hlt
      cases messages with
      | nil => simp at hlt
      | cons m rest =>
        simp only [List.length_cons] at hlt h
        have hrest : rest.length - MAX_HISTORY_PER_CHANNEL ≤ fuel := by omega
        rw [List.tail_cons, ih rest hrest]
        have hsub : (m :: rest).length - MAX_HISTORY_PER_CHANNEL
            = (rest.length - MAX_HISTORY_PER_CHANNEL) + 1 := by
          simp only [List.length_cons]; omega
        rw [hsub, List.drop_succ_cons]
    · rename_i hlt
      have h0 : messages.length - MAX_HISTORY_PER_CHANNEL = 0 := by omega
      simp [h0]

theorem enforceMaximum_eq_drop (messages : QStringList) :
    enforceMaximum messages = messages.drop (messages.length - MAX_HISTORY_PER_CHANNEL) :=
  enforceMaximumLoop_eq_drop _ _ (Nat.sub_le _ _)

theorem enforceMaximum_length_le (messages : QStringList) :
    (enforceMaximum messages).length ≤ MAX_HISTORY_PER_CHANNEL := by
  rw [enforceMaximum_eq_drop, List.length_drop]
  omega

theorem enforceMaximum_of_le (messages : QStringList)
    (h : messages.length ≤ MAX_HISTORY_PER_CHANNEL) : enforceMaximum messages = messages := by
  rw [enforceMaximum_eq_drop, Nat.sub_eq_zero_of_le h, List.drop_zero]

/-! ## Lemmas on the hash -/

theorem QHash.value_empty (key : QString) : QHash.value ∅ key = [] := by
  simp [QHash.value]

theorem QHash.value_insert_self (h : QHash) (key : QString) (messages : QStringList) :
    QHash.value (h.insert key messages) key = messages := by
  simp [QHash.value, AList.lookup_insert]

theorem QHash.value_insert_ne (h : QHash) {key other : QString} (messages : QStringList)
    (hne : other ≠ key) : QHash.value (h.insert key messages) other = QHash.value h other := by
  simp [QHash.value, AList.lookup_insert_ne hne]

theorem QHash.subscript_snd (h : QHash) (key : QString) :
    (QHash.subscript h key).2 = QHash.value h key := by
  unfold QHash.subscript QHash.value
  cases h.lookup key <;> rfl

theorem QHash.value_subscript_fst (h : QHash) (key other : QString) :
    QHash.value (QHash.subscript h key).1 other = QHash.value h other := by
  unfold QHash.subscript
  cases hk : h.lookup key with
  | some messages => rfl
  | none =>
    by_cases hne : other = key
    · subst hne
      simp [QHash.value, hk]
    · exact QHash.value_insert_ne h [] hne

theorem QHash.subscript_fst_of_ne_nil (h : QHash) (key : QString)
    (hne : QHash.value h key ≠ []) : (QHash.subscript h key).1 = h := by
  unfold QHash.subscript
  cases hk : h.lookup key with
  | some messages => rfl
  | none => simp [QHash.value, hk] at hne

/-! ## The log of a channel after `addMessage` -/

theorem getLast?_test (log : QStringList) (message : QString) :
    (!log.isEmpty && log.getLast? == some message) = decide (log.getLast? = some message) := by
  cases log with
  | nil => simp
  | cons m rest =>
    rw [Bool.eq_iff_iff]
    simp

theorem addMessage_rejected (s : ChatHistoryManager) (now : Nat) (channelName message : QString)
    (h : channelName = [] ∨ QString.trimmed message = []) :
    addMessage s now channelName message = s := by
  unfold addMessage
  rcases h with h | h <;> simp [h]

theorem getMessages_addMessage_self (s : ChatHistoryManager) (now : Nat)
    (channelName message : QString) (hc : channelName ≠ [])
    (hm : QString.trimmed message ≠ []) :
    getMessages (addMessage s now channelName message) channelName
      = logAfterAdd (getMessages s channelName) message := by
  unfold addMessage getMessages logAfterAdd
  have hcond : (channelName.isEmpty || (QString.trimmed message).isEmpty) = false := by
    simp [List.isEmpty_iff, hc, hm]
  simp only [hcond, Bool.false_eq_true, if_false]
  rw [getLast?_test, QHash.subscript_snd]
  by_cases hlast : (QHash.value s.history_ channelName).getLast? = some message
  · simp only [hlast, decide_True, if_true]
    exact QHash.value_subscript_fst _ _ _
  · simp only [hlast, decide_False, Bool.false_eq_true, if_false]
    exact QHash.value_insert_self _ _ _

theorem getMessages_addMessage_ne (s : ChatHistoryManager) (now : Nat)
    (channelName message other : QString) (hne : other ≠ channelName) :
    getMessages (addMessage s now channelName message) other = getMessages s other := by
  unfold addMessage getMessages
  by_cases hcond : (channelName.isEmpty || (QString.trimmed message).isEmpty) = true
  · simp only [hcond, if_true]
  · simp only [hcond, Bool.false_eq_true, if_false]
    rw [getLast?_test, QHash.subscript_snd]
    by_cases hlast : (QHash.value s.history_ channelName).getLast? = some message
    · simp only [hlast, decide_True, if_true]
      exact QHash.value_subscript_fst _ _ _
    · simp only [hlast, decide_False, Bool.false_eq_true, if_false]
      rw [QHash.value_insert_ne _ _ hne]
      exact QHash.value_subscript_fst _ _ _

theorem logAfterAdd_length_le (log : QStringList) (message : QString)
    (h : log.length ≤ MAX_HISTORY_PER_CHANNEL) :
    (logAfterAdd log message).length ≤ MAX_HISTORY_PER_CHANNEL := by
  unfold logAfterAdd
  split
  · exact h
  · exact enforceMaximum_length_le _

theorem logAfterAdd_getLast? (log : QStringList) (message : QString) :
    (logAfterAdd log message).getLast? = some message := by
  unfold logAfterAdd
  split
  · assumption
  · rw [enforceMaximum_eq_drop]
    have hlen : (log ++ [message]).length - MAX_HISTORY_PER_CHANNEL ≤ log.length := by
      simp only [List.length_append, List.length_singleton, MAX_HISTORY_PER_CHANNEL]
      omega
    rw [List.drop_append_of_le_length hlen]
    simp

theorem logAfterAdd_ne_nil (log : QStringList) (message : QString) :
    logAfterAdd log message ≠ [] := by
  intro h
  have := logAfterAdd_getLast? log message
  rw [h] at this
  simp at this

/-! ## The history after `load` -/

theorem loadMessages_foldl (messagesArray : List QJsonValue) :
    ∀ acc : QStringList,
      messagesArray.foldl
        (fun messages msgVal =>
          let msg := msgVal.toString
          if !msg.isEmpty then messages ++ [msg] else messages) acc
        = acc ++ storedStrings messagesArray := by
  induction messagesArray with
  | nil => intro acc; simp [storedStrings]
  | cons v rest ih =>
    intro acc
    rw [List.foldl_cons, ih]
    by_cases hv : v.toString.isEmpty = true
    · simp [storedStrings, hv]
    · simp [storedStrings, hv]

theorem loadMessages_eq (messagesArray : List QJsonValue) :
    loadMessages messagesArray = enforceMaximum (storedStrings messagesArray) := by
  unfold loadMessages
  simp only []
  rw [loadMessages_foldl]
  rfl

theorem load_history (s : ChatHistoryManager) (file : HistoryFile) :
    (load s file).history_ = s.history_ ∨
      ∃ doc, file = .data doc ∧
        (load s file).history_ = (documentChannels doc).foldl
          (fun history it => history.insert it.1 (loadMessages it.2.toArray)) s.history_ := by
  cases file with
  | missing => exact Or.inl rfl
  | unreadable => exact Or.inl rfl
  | data doc =>
    unfold load
    simp only []
    split
    · exact Or.inl rfl
    · split
      · exact Or.inl rfl
      · exact Or.inr ⟨doc, rfl, rfl⟩

theorem value_foldl_insert (P : QStringList → Prop) (f : QJsonValue → QStringList) :
    ∀ (channels : QJsonObject) (h : QHash), (∀ it ∈ channels, P (f it.2)) →
      (∀ key, P (QHash.value h key)) →
      ∀ key, P (QHash.value
        (channels.foldl (fun history it => history.insert it.1 (f it.2)) h) key) := by
  intro channels
  induction channels with
  | nil => intro h _ hh key; exact hh key
  | cons it rest ih =>
    intro h hall hh key
    rw [List.foldl_cons]
    apply ih
    · intro it' hit'
      exact hall it' (List.mem_cons_of_mem _ hit')
    · intro key'
      by_cases hk : key' = it.1
      · subst hk
        rw [QHash.value_insert_self]
        exact hall it (List.mem_cons_self _ _)
      · rw [QHash.value_insert_ne _ _ hk]
        exact hh key'

theorem getMessages_load_pred (P : QStringList → Prop) (s : ChatHistoryManager)
    (file : HistoryFile) (hs : ∀ key, P (getMessages s key))
    (hfile : ∀ doc, file = .data doc →
      ∀ it ∈ documentChannels doc, P (loadMessages it.2.toArray)) :
    ∀ key, P (getMessages (load s file) key) := by
  intro key
  unfold getMessages
  rcases load_history s file with h | ⟨doc, hdoc, h⟩
  · rw [h]; exact hs key
  · rw [h]
    exact value_foldl_insert P (fun v => loadMessages v.toArray) _ _ (hfile doc hdoc) hs key

theorem getMessages_addMessage_pred (P : QStringList → Prop) (s : ChatHistoryManager)
    (now : Nat) (channelName message : QString) (hs : ∀ key, P (getMessages s key))
    (hadd : QString.trimmed message ≠ [] → P (getMessages s channelName) →
      P (logAfterAdd (getMessages s channelName) message)) :
    ∀ key, P (getMessages (addMessage s now channelName message) key) := by
  intro key
  by_cases hrej : channelName = [] ∨ QString.trimmed message = []
  · rw [addMessage_rejected s now channelName message hrej]
    exact hs key
  · push_neg at hrej
    by_cases hk : key = channelName
    · subst hk
      rw [getMessages_addMessage_self s now key message hrej.1 hrej.2]
      exact hadd hrej.2 (hs key)
    · rw [getMessages_addMessage_ne s now channelName message key hk]
      exact hs key

theorem getMessages_initial (path key : QString) :
    getMessages (ChatHistoryManager.initial path) key = [] := by
  simp [getMessages, ChatHistoryManager.initial, QHash.value]

theorem reachable_pred (P : QStringList → Prop) (allowed : HistoryFile → Prop)
    (hnil : P [])
    (hadd : ∀ log message, QString.trimmed message ≠ [] → P log → P (logAfterAdd log message))
    (hload : ∀ file, allowed file → ∀ doc, file = .data doc →
      ∀ it ∈ documentChannels doc, P (loadMessages it.2.toArray))
    (s : ChatHistoryManager) (hs : Reachable allowed s) :
    ∀ key, P (getMessages s key) := by
  induction hs with
  | initial path =>
    intro key
    rw [getMessages_initial]
    exact hnil
  | addMessage now channelName message _ ih =>
    exact getMessages_addMessage_pred P _ now channelName message ih (hadd _ _)
  | load file hfile _ ih =>
    exact getMessages_load_pred P _ file ih (hload file hfile)

theorem chain_enforceMaximum (messages : QStringList) (h : messages.Chain' (· ≠ ·)) :
    (enforceMaximum messages).Chain' (· ≠ ·) := by
  rw [enforceMaximum_eq_drop]
  generalize messages.length - MAX_HISTORY_PER_CHANNEL = n
  exact List.Chain'.drop h n

theorem chain_logAfterAdd (log : QStringList) (message : QString)
    (h : log.Chain' (· ≠ ·)) : (logAfterAdd log message).Chain' (· ≠ ·) := by
  unfold logAfterAdd
  split
  · exact h
  · rename_i hlast
    apply chain_enforceMaximum
    rw [List.chain'_append]
    refine ⟨h, List.chain'_singleton _, ?_⟩
    intro x hx y hy
    simp only [List.head?_cons, Option.mem_def, Option.some.injEq] at hy
    subst hy
    intro hxy
    subst hxy
    exact hlast hx

/-! ## The scan of `getFiltered` -/

theorem getFilteredLoop_eq_foldr (fold : Char → Char) (messages : QStringList)
    (searchText : QString) :
    ∀ (n : Nat), n ≤ messages.length → ∀ st,
      getFilteredLoop fold messages searchText n st
        = (messages.take n).foldr (getFilteredStep fold searchText) st := by
  intro n
  induction n with
  | zero => intro _ st; simp [getFilteredLoop]
  | succ n ih =>
    intro hn st
    have hlt : n < messages.length := hn
    rw [getFilteredLoop, ih (Nat.le_of_lt hlt), List.take_succ, List.foldr_append]
    have hget : messages.getD n [] = messages[n] := by
      simp [List.getD_eq_getElem?_getD, List.getElem?_eq_getElem hlt]
    simp [hget, List.getElem?_eq_getElem hlt]

theorem mem_lastOccurrences (p : QString → Bool) (x : QString) :
    ∀ log : QStringList, x ∈ lastOccurrences p log ↔ x ∈ log ∧ p x = true := by
  intro log
  induction log with
  | nil => simp [lastOccurrences]
  | cons m rest ih =>
    unfold lastOccurrences
    split
    · rename_i hkeep
      rw [List.mem_cons, List.mem_cons, ih]
      constructor
      · rintro (h | h)
        · exact ⟨Or.inl h, h ▸ hkeep.1⟩
        · exact ⟨Or.inr h.1, h.2⟩
      · rintro ⟨h | h, hp⟩
        · exact Or.inl h
        · exact Or.inr ⟨h, hp⟩
    · rename_i hdrop
      rw [List.mem_cons, ih]
      constructor
      · rintro ⟨h, hp⟩
        exact ⟨Or.inr h, hp⟩
      · rintro ⟨h | h, hp⟩
        · subst h
          by_contra hcon
          exact hdrop ⟨hp, fun hm => hcon ⟨hm, hp⟩⟩
        · exact ⟨h, hp⟩

theorem nodup_lastOccurrences (p : QString → Bool) :
    ∀ log : QStringList, (lastOccurrences p log).Nodup := by
  intro log
  induction log with
  | nil => simp [lastOccurrences]
  | cons m rest ih =>
    unfold lastOccurrences
    split
    · rename_i hkeep
      rw [List.nodup_cons]
      refine ⟨?_, ih⟩
      rw [mem_lastOccurrences]
      exact fun h => hkeep.2 h.1
    · exact ih

theorem sublist_lastOccurrences (p : QString → Bool) :
    ∀ log : QStringList, (lastOccurrences p log).Sublist log := by
  intro log
  induction log with
  | nil => simp [lastOccurrences]
  | cons m rest ih =>
    unfold lastOccurrences
    split
    · exact ih.cons₂ m
    · exact ih.cons m

theorem foldr_getFilteredStep (fold : Char → Char) (searchText : QString) :
    ∀ log : QStringList,
      log.foldr (getFilteredStep fold searchText) ([], [])
        = (lastOccurrences (fun m => QString.contains fold m searchText) log,
           lastOccurrences (fun m => QString.contains fold m searchText) log) := by
  intro log
  induction log with
  | nil => rfl
  | cons m rest ih =>
    rw [List.foldr_cons, ih]
    unfold getFilteredStep
    simp only [lastOccurrences]
    by_cases hp : QString.contains fold m searchText = true
    · by_cases hm : m ∈ rest
      · have hmem : m ∈ lastOccurrences (fun m => QString.contains fold m searchText) rest :=
          (mem_lastOccurrences _ _ _).2 ⟨hm, hp⟩
        simp [hp, hm, hmem]
      · have hmem : m ∉ lastOccurrences (fun m => QString.contains fold m searchText) rest :=
          fun h => hm ((mem_lastOccurrences _ _ _).1 h).1
        simp [hp, hm, hmem]
    · simp [hp]

theorem filterLog_eq_lastOccurrences (fold : Char → Char) (log : QStringList)
    (searchText : QString) :
    filterLog fold log searchText
      = lastOccurrences (fun m => QString.contains fold m searchText) log := by
  unfold filterLog
  rw [getFilteredLoop_eq_foldr fold log searchText log.length (Nat.le_refl _), List.take_length,
    foldr_getFilteredStep]

theorem getFiltered_eq_filterLog (fold : Char → Char) (s : ChatHistoryManager)
    (channelName searchText : QString) (ht : searchText ≠ []) :
    getFiltered fold s channelName searchText
      = filterLog fold (getMessages s channelName) searchText := by
  unfold getFiltered filterLog getMessages
  have hcond : searchText.isEmpty = false := by
    cases searchText with
    | nil => exact absurd rfl ht
    | cons c cs => rfl
  simp only [hcond, Bool.false_eq_true, if_false]

/-! ## Case-insensitive containment -/

theorem startsWithFolded_iff (fold : Char → Char) :
    ∀ hay needle : QString, QString.startsWithFolded fold hay needle = true ↔
      ∃ mid post, hay = mid ++ post ∧ mid.map fold = needle.map fold := by
  intro hay
  induction hay with
  | nil =>
    intro needle
    cases needle with
    | nil => simp [QString.startsWithFolded]
    | cons n ns =>
      simp only [QString.startsWithFolded, Bool.false_eq_true, false_iff]
      rintro ⟨mid, post, h, hmap⟩
      have hmid : mid = [] := (List.append_eq_nil.1 h.symm).1
      subst hmid
      simp at hmap
  | cons h hs ih =>
    intro needle
    cases needle with
    | nil =>
      simp only [QString.startsWithFolded, true_iff]
      exact ⟨[], h :: hs, rfl, rfl⟩
    | cons n ns =>
      simp only [QString.startsWithFolded, Bool.and_eq_true, beq_iff_eq, ih]
      constructor
      · rintro ⟨hfold, mid, post, hhs, hmap⟩
        exact ⟨h :: mid, post, by simp [hhs], by simp [hfold, hmap]⟩
      · rintro ⟨mid, post, hhs, hmap⟩
        cases mid with
        | nil => simp at hmap
        | cons c cs =>
          simp only [List.cons_append, List.cons.injEq] at hhs
          simp only [List.map_cons, List.cons.injEq] at hmap
          exact ⟨hhs.1 ▸ hmap.1, cs, post, hhs.2, hmap.2⟩

theorem contains_iff (fold : Char → Char) :
    ∀ hay needle : QString, QString.contains fold hay needle = true ↔
      ∃ pre mid post, hay = pre ++ (mid ++ post) ∧ mid.map fold = needle.map fold := by
  intro hay
  induction hay with
  | nil =>
    intro needle
    simp only [QString.contains, startsWithFolded_iff]
    constructor
    · rintro ⟨mid, post, h, hmap⟩
      exact ⟨[], mid, post, h, hmap⟩
    · rintro ⟨pre, mid, post, h, hmap⟩
      have hpre : pre = [] := (List.append_eq_nil.1 h.symm).1
      subst hpre
      exact ⟨mid, post, h, hmap⟩
  | cons h hs ih =>
    intro needle
    simp only [QString.contains, Bool.or_eq_true, startsWithFolded_iff, ih]
    constructor
    · rintro (⟨mid, post, hh, hmap⟩ | ⟨pre, mid, post, hh, hmap⟩)
      · exact ⟨[], mid, post, hh, hmap⟩
      · exact ⟨h :: pre, mid, post, by simp [hh], hmap⟩
    · rintro ⟨pre, mid, post, hh, hmap⟩
      cases pre with
      | nil => exact Or.inl ⟨mid, post, hh, hmap⟩
      | cons c cs =>
        simp only [List.cons_append, List.cons.injEq] at hh
        exact Or.inr ⟨cs, mid, post, hh.2, hmap⟩

theorem exists_last_occurrence (x : QString) :
    ∀ log : QStringList, x ∈ log → ∃ before after, log = before ++ x :: after ∧ x ∉ after := by
  intro log
  induction log with
  | nil => intro h; simp at h
  | cons m rest ih =>
    intro h
    by_cases hrest : x ∈ rest
    · obtain ⟨before, after, hlog, hnot⟩ := ih hrest
      exact ⟨m :: before, after, by simp [hlog], hnot⟩
    · have hxm : x = m := by
        rcases List.mem_cons.1 h with h | h
        · exact h
        · exact absurd h hrest
      subst hxm
      exact ⟨[], rest, rfl, hrest⟩

theorem lastOccurrences_order (p : QString → Bool) :
    ∀ (log : QStringList) (a b : QString) (front mid back : QStringList),
      lastOccurrences p log = front ++ a :: (mid ++ b :: back) →
      ∃ x y z, log = x ++ a :: (y ++ b :: z) ∧ a ∉ y ++ b :: z ∧ b ∉ z := by
  intro log
  induction log with
  | nil =>
    intro a b front mid back h
    simp [lastOccurrences] at h
  | cons m rest ih =>
    intro a b front mid back h
    unfold lastOccurrences at h
    split at h
    · rename_i hkeep
      cases front with
      | nil =>
        simp only [List.nil_append, List.cons.injEq] at h
        obtain ⟨hma, hrest⟩ := h
        subst hma
        have hb : b ∈ rest := by
          have : b ∈ lastOccurrences p rest := by rw [hrest]; simp
          exact ((mem_lastOccurrences p b rest).1 this).1
        obtain ⟨y, z, hyz, hbz⟩ := exists_last_occurrence b rest hb
        refine ⟨[], y, z, by simp [hyz], ?_, hbz⟩
        rw [← hyz]
        exact hkeep.2
      | cons f front =>
        simp only [List.cons_append, List.cons.injEq] at h
        obtain ⟨x, y, z, hlog, ha, hb⟩ := ih a b front mid back h.2
        exact ⟨m :: x, y, z, by simp [hlog], ha, hb⟩
    · obtain ⟨x, y, z, hlog, ha, hb⟩ := ih a b front mid back h
      exact ⟨m :: x, y, z, by simp [hlog], ha, hb⟩

/-! ## A sequence of calls of `addMessage` -/

theorem drop_excess_append (n : Nat) (front back : QStringList) :
    (front.drop (front.length - n) ++ back).drop
        ((front.drop (front.length - n) ++ back).length - n)
      = (front ++ back).drop ((front ++ back).length - n) := by
  by_cases h : front.length ≤ n
  · rw [Nat.sub_eq_zero_of_le h, List.drop_zero]
  · have hk : front.length - n ≤ front.length := Nat.sub_le _ _
    have hlen : (front.drop (front.length - n) ++ back).length - n = back.length := by
      simp only [List.length_append, List.length_drop]
      omega
    have hlen' : (front ++ back).length - n = (front.length - n) + back.length := by
      simp only [List.length_append]
      omega
    rw [hlen, hlen', ← List.drop_drop, List.drop_append_of_le_length hk]

theorem addMessages_log (s : ChatHistoryManager) (channelName : QString)
    (hc : channelName ≠ []) (hempty : getMessages s channelName = []) :
    ∀ calls : List (Nat × QString),
      (∀ m ∈ calls.map Prod.snd, QString.trimmed m ≠ []) →
      (calls.map Prod.snd).Chain' (· ≠ ·) →
      getMessages (addMessages s channelName calls) channelName
        = (calls.map Prod.snd).drop ((calls.map Prod.snd).length - MAX_HISTORY_PER_CHANNEL) := by
  intro calls
  induction calls using List.reverseRecOn with
  | nil =>
    intro _ _
    simpa [addMessages] using hempty
  | append_singleton calls call ih =>
    intro hvalid hchain
    rw [List.map_append, List.map_singleton] at hvalid hchain
    rw [List.chain'_append] at hchain
    obtain ⟨hinit, -, hlast⟩ := hchain
    have hprev := ih (fun m hm => hvalid m (List.mem_append_left _ hm)) hinit
    have hcall : QString.trimmed call.2 ≠ [] := hvalid call.2 (by simp)
    unfold addMessages at hprev ⊢
    rw [List.foldl_append, List.foldl_cons, List.foldl_nil,
      getMessages_addMessage_self _ call.1 channelName call.2 hc hcall, hprev]
    have hnotlast : ((calls.map Prod.snd).drop
        ((calls.map Prod.snd).length - MAX_HISTORY_PER_CHANNEL)).getLast? ≠ some call.2 := by
      rw [List.getLast?_drop]
      split
      · simp
      · intro heq
        exact hlast _ heq call.2 (by simp) rfl
    rw [logAfterAdd, if_neg hnotlast, enforceMaximum_eq_drop, List.map_append,
      List.map_singleton]
    exact drop_excess_append _ _ _

/-! ## Saving and loading back -/

theorem QJsonObject.set_of_not_mem (o : QJsonObject) (key : QString) (value : QJsonValue)
    (h : key ∉ o.map Prod.fst) : QJsonObject.set o key value = o ++ [(key, value)] := by
  unfold QJsonObject.set
  congr 1
  rw [List.filter_eq_self]
  intro member hmem
  have hne : member.1 ≠ key := by
    intro heq
    exact h (heq ▸ List.mem_map_of_mem Prod.fst hmem)
  simp [hne]

theorem foldl_append_string (messages : QStringList) :
    ∀ acc : List QJsonValue,
      messages.foldl (fun arr msg => arr ++ [QJsonValue.string msg]) acc
        = acc ++ messages.map QJsonValue.string := by
  induction messages with
  | nil => intro acc; simp
  | cons m rest ih => intro acc; simp [ih]

theorem saveChannels_foldl (entries : List (Sigma (fun _ : QString => QStringList))) :
    ∀ acc : QJsonObject, entries.NodupKeys →
      (∀ key ∈ entries.keys, key ∉ acc.map Prod.fst) →
      entries.foldl
        (fun channels it =>
          let messagesArray := it.2.foldl (fun arr msg => arr ++ [QJsonValue.string msg]) []
          QJsonObject.set channels it.1 (.array messagesArray)) acc
        = acc ++ entries.map channelMember := by
  induction entries with
  | nil => intro acc _ _; simp
  | cons it rest ih =>
    intro acc hnodup hdisj
    rw [List.nodupKeys_cons] at hnodup
    rw [List.foldl_cons]
    simp only []
    rw [foldl_append_string, List.nil_append,
      QJsonObject.set_of_not_mem acc it.1 _ (hdisj it.1 (by simp [List.keys]))]
    rw [ih _ hnodup.2]
    · simp [channelMember]
    · intro key hkey
      rw [List.map_append, List.mem_append]
      rintro (hacc | hit)
      · exact hdisj key (by simp only [List.keys_cons]; exact List.mem_cons_of_mem _ hkey) hacc
      · simp only [List.map_cons, List.map_nil, List.mem_singleton] at hit
        exact hnodup.1 (hit ▸ hkey)

theorem saveChannels_eq (history : QHash) :
    saveChannels history = history.entries.map channelMember := by
  unfold saveChannels
  rw [saveChannels_foldl history.entries [] history.nodupKeys (by simp), List.nil_append]

theorem documentChannels_saveDocument (s : ChatHistoryManager) :
    documentChannels (saveDocument s) = saveChannels s.history_ := by
  rfl

theorem documentVersion_saveDocument (s : ChatHistoryManager) :
    documentVersion (saveDocument s) = 1 := by
  rfl

theorem load_saveDocument (t s : ChatHistoryManager) :
    (load t (.data (saveDocument s))).history_
      = (saveChannels s.history_).foldl
          (fun history it => history.insert it.1 (loadMessages it.2.toArray)) t.history_ := by
  rfl

theorem value_foldl_insert_of_not_mem (f : QJsonValue → QStringList) (key : QString) :
    ∀ (channels : QJsonObject) (h : QHash), key ∉ channels.map Prod.fst →
      QHash.value (channels.foldl (fun history it => history.insert it.1 (f it.2)) h) key
        = QHash.value h key := by
  intro channels
  induction channels with
  | nil => intro h _; rfl
  | cons it rest ih =>
    intro h hkey
    rw [List.map_cons, List.mem_cons, not_or] at hkey
    rw [List.foldl_cons, ih _ hkey.2, QHash.value_insert_ne _ _ hkey.1]

theorem value_foldl_insert_of_mem (f : QJsonValue → QStringList) (key : QString)
    (value : QJsonValue) :
    ∀ (channels : QJsonObject) (h : QHash), (channels.map Prod.fst).Nodup →
      (key, value) ∈ channels →
      QHash.value (channels.foldl (fun history it => history.insert it.1 (f it.2)) h) key
        = f value := by
  intro channels
  induction channels with
  | nil => intro h _ hmem; simp at hmem
  | cons it rest ih =>
    intro h hnodup hmem
    rw [List.map_cons, List.nodup_cons] at hnodup
    rw [List.foldl_cons]
    rcases List.mem_cons.1 hmem with heq | hrest
    · subst heq
      rw [value_foldl_insert_of_not_mem f _ rest _ hnodup.1, QHash.value_insert_self]
    · exact ih _ hnodup.2 hrest

theorem storedStrings_map_string (messages : QStringList) (h : ∀ m ∈ messages, m ≠ []) :
    storedStrings (messages.map QJsonValue.string) = messages := by
  unfold storedStrings
  rw [List.map_map]
  have hid : (QJsonValue.toString ∘ QJsonValue.string) = id := rfl
  rw [hid, List.map_id, List.filter_eq_self]
  intro m hm
  have := h m hm
  cases m with
  | nil => exact absurd rfl this
  | cons c cs => rfl

theorem map_fst_channelMember (entries : List (Sigma (fun _ : QString => QStringList))) :
    (entries.map channelMember).map Prod.fst = entries.keys := by
  induction entries with
  | nil => rfl
  | cons it rest ih => simp [channelMember, List.keys]

theorem getMessages_load_saveDocument (t s : ChatHistoryManager) (channelName : QString)
    (hcap : (getMessages s channelName).length ≤ MAX_HISTORY_PER_CHANNEL)
    (hne : ∀ m ∈ getMessages s channelName, m ≠ []) :
    getMessages (load t (.data (saveDocument s))) channelName
      = if channelName ∈ s.history_.keys then getMessages s channelName
        else getMessages t channelName := by
  unfold getMessages at hcap hne ⊢
  rw [load_saveDocument, saveChannels_eq]
  cases hk : s.history_.lookup channelName with
  | none =>
    have hnot : channelName ∉ s.history_.keys := by
      rw [← AList.mem_keys]
      exact AList.lookup_eq_none.1 hk
    rw [if_neg hnot]
    apply value_foldl_insert_of_not_mem (fun v => loadMessages v.toArray)
    rw [map_fst_channelMember]
    exact hnot
  | some messages =>
    have hval : QHash.value s.history_ channelName = messages := by
      simp [QHash.value, hk]
    have hin : channelName ∈ s.history_.keys := by
      rw [← AList.mem_keys, ← AList.lookup_isSome, hk]
      rfl
    rw [if_pos hin, hval]
    rw [hval] at hcap hne
    have hmem : (⟨channelName, messages⟩ : Sigma (fun _ : QString => QStringList))
        ∈ s.history_.entries := AList.mem_lookup_iff.1 hk
    have hmem' : (channelName, QJsonValue.array (messages.map QJsonValue.string))
        ∈ s.history_.entries.map channelMember :=
      List.mem_map_of_mem channelMember hmem
    rw [value_foldl_insert_of_mem (fun v => loadMessages v.toArray) channelName _ _ _ ?_ hmem']
    · show loadMessages (messages.map QJsonValue.string) = messages
      rw [loadMessages_eq, storedStrings_map_string messages hne, enforceMaximum_of_le _ hcap]
    · rw [map_fst_channelMember]
      exact s.history_.nodupKeys

theorem getMessages_round_trip (s : ChatHistoryManager) (path channelName : QString)
    (hcap : (getMessages s channelName).length ≤ MAX_HISTORY_PER_CHANNEL)
    (hne : ∀ m ∈ getMessages s channelName, m ≠ []) :
    getMessages (load (ChatHistoryManager.initial path) (.data (saveDocument s))) channelName
      = getMessages s channelName := by
  rw [getMessages_load_saveDocument _ s channelName hcap hne]
  split
  · rfl
  · rename_i hnot
    rw [getMessages_initial]
    have hnone : s.history_.lookup channelName = none := by
      rw [AList.lookup_eq_none, AList.mem_keys]
      exact hnot
    simp [getMessages, QHash.value, hnone]

theorem reachable_entries_ne_nil (allowed : HistoryFile → Prop) (s : ChatHistoryManager)
    (hs : Reachable allowed s) (channelName : QString) :
    ∀ m ∈ getMessages s channelName, m ≠ [] := by
  refine reachable_pred (fun log => ∀ m ∈ log, m ≠ []) allowed (by simp) ?_ ?_ s hs channelName
  · intro log message hvalid hlog
    unfold logAfterAdd
    split
    · exact hlog
    · rw [enforceMaximum_eq_drop]
      intro m hm
      rcases List.mem_append.1 (List.mem_of_mem_drop hm) with h | h
      · exact hlog m h
      · rw [List.mem_singleton] at h
        subst h
        intro hnil
        apply hvalid
        rw [hnil]
        rfl
  · intro file _ doc _ it _
    rw [loadMessages_eq, enforceMaximum_eq_drop]
    intro m hm
    have hmem := List.mem_of_mem_drop hm
    unfold storedStrings at hmem
    have hfilter := (List.mem_filter.1 hmem).2
    intro hnil
    rw [hnil] at hfilter
    simp at hfilter

theorem reachable_length_le (allowed : HistoryFile → Prop) (s : ChatHistoryManager)
    (hs : Reachable allowed s) (channelName : QString) :
    (getMessages s channelName).length ≤ MAX_HISTORY_PER_CHANNEL := by
  refine reachable_pred (fun log => log.length ≤ MAX_HISTORY_PER_CHANNEL) allowed
    (Nat.zero_le _) (fun log message _ h => logAfterAdd_length_le log message h) ?_ s hs
    channelName
  intro file _ doc _ it _
  rw [loadMessages_eq]
  exact enforceMaximum_length_le _

/-! ## Rejection of documents and of arguments -/

theorem toInt_eq_one (v : QJsonValue) (h : v.toInt 0 = 1) : v = .number 1 := by
  cases v with
  | number q =>
    have h' : (if q.den = 1 ∧ -(2 : Int) ^ 31 ≤ q.num ∧ q.num < (2 : Int) ^ 31
        then q.num else 0) = 1 := h
    by_cases hq : q.den = 1 ∧ -(2 : Int) ^ 31 ≤ q.num ∧ q.num < (2 : Int) ^ 31
    · rw [if_pos hq] at h'
      have hq1 : q = 1 := Rat.ext (by simpa using h') (by simpa using hq.1)
      rw [hq1]
    · rw [if_neg hq] at h'
      exact absurd h' (by decide)
  | _ => exact absurd h (by simp [QJsonValue.toInt])

theorem trimmed_of_all_space (message : QString)
    (h : ∀ ch ∈ message, QChar.isSpace ch = true) : QString.trimmed message = [] := by
  unfold QString.trimmed
  have hdrop : message.dropWhile QChar.isSpace = [] := by
    rw [List.dropWhile_eq_nil_iff]
    exact h
  rw [hdrop]
  rfl

/-! ## Accepted documents -/

theorem toInt_number_one : (QJsonValue.number 1).toInt 0 = 1 := by
  rfl

theorem load_accepted (s : ChatHistoryManager) (root : QJsonObject)
    (hversion : root.lookup "version".toList = some (.number 1)) :
    load s (.data (.object root))
      = { s with
          history_ := (documentChannels (.object root)).foldl
            (fun history it => history.insert it.1 (loadMessages it.2.toArray)) s.history_ } := by
  have hsub : QJsonObject.subscript root "version".toList = .number 1 := by
    unfold QJsonObject.subscript
    rw [hversion]
  have hint : ((QJsonObject.subscript root "version".toList).toInt 0 != 1) = false := by
    rw [hsub, toInt_number_one]
    rfl
  unfold load
  simp only [QJsonDocument.isObject, QJsonDocument.toObject, Bool.not_true,
    Bool.false_eq_true, if_false]
  rw [hint]
  rfl

theorem documentChannels_of_lookup (root channels : QJsonObject)
    (hchannels : root.lookup "channels".toList = some (.object channels)) :
    documentChannels (.object root) = channels := by
  unfold documentChannels QJsonObject.subscript
  simp only [QJsonDocument.toObject]
  rw [hchannels]
  rfl

theorem storedStrings_eq_nonEmptyStrings (messagesArray : List QJsonValue) :
    storedStrings messagesArray = nonEmptyStrings messagesArray := by
  induction messagesArray with
  | nil => rfl
  | cons v rest ih =>
    unfold storedStrings at ih ⊢
    cases v with
    | string msg =>
      cases msg with
      | nil => simpa [nonEmptyStrings, QJsonValue.toString] using ih
      | cons c cs => simpa [nonEmptyStrings, QJsonValue.toString] using ih
    | _ => simpa [nonEmptyStrings, QJsonValue.toString] using ih

/-! ## The three outcomes of `addMessage` -/

theorem addMessage_suppressed (s : ChatHistoryManager) (now : Nat)
    (channelName message : QString) (hc : channelName ≠ [])
    (hm : QString.trimmed message ≠ [])
    (hlast : (getMessages s channelName).getLast? = some message) :
    addMessage s now channelName message = s := by
  have hne : QHash.value s.history_ channelName ≠ [] := by
    intro h
    unfold getMessages at hlast
    rw [h] at hlast
    simp at hlast
  have hcond : (channelName.isEmpty || (QString.trimmed message).isEmpty) = false := by
    simp [List.isEmpty_iff, hc, hm]
  unfold getMessages at hlast
  unfold addMessage
  simp only [hcond, Bool.false_eq_true, if_false]
  rw [getLast?_test, QHash.subscript_snd, QHash.subscript_fst_of_ne_nil _ _ hne]
  simp only [hlast, decide_True, if_true]

theorem addMessage_appended (s : ChatHistoryManager) (now : Nat)
    (channelName message : QString) (hc : channelName ≠ [])
    (hm : QString.trimmed message ≠ [])
    (hlast : (getMessages s channelName).getLast? ≠ some message) :
    (addMessage s now channelName message).debouncedSaveTimer_ = armedAt now
      ∧ (addMessage s now channelName message).debouncedSaveConnected_ = true
      ∧ getMessages (addMessage s now channelName message) channelName
          = enforceMaximum (getMessages s channelName ++ [message]) := by
  have hcond : (channelName.isEmpty || (QString.trimmed message).isEmpty) = false := by
    simp [List.isEmpty_iff, hc, hm]
  refine ⟨?_, ?_, ?_⟩
  · unfold getMessages at hlast
    unfold addMessage
    simp only [hcond, Bool.false_eq_true, if_false]
    rw [getLast?_test, QHash.subscript_snd]
    simp only [hlast, decide_False, Bool.false_eq_true, if_false]
    rfl
  · unfold getMessages at hlast
    unfold addMessage
    simp only [hcond, Bool.false_eq_true, if_false]
    rw [getLast?_test, QHash.subscript_snd]
    simp only [hlast, decide_False, Bool.false_eq_true, if_false]
  · rw [getMessages_addMessage_self s now channelName message hc hm, logAfterAdd,
      if_neg hlast]

theorem enforceMaximum_append_ne (log : QStringList) (message : QString)
    (hlast : log.getLast? ≠ some message) : enforceMaximum (log ++ [message]) ≠ log := by
  intro h
  have hl := logAfterAdd_getLast? log message
  rw [logAfterAdd, if_neg hlast, h] at hl
  exact hlast hl

theorem getMessages_addMessage_changed_iff (s : ChatHistoryManager) (now : Nat)
    (channelName message : QString) :
    getMessages (addMessage s now channelName message) channelName
        ≠ getMessages s channelName
      ↔ channelName ≠ [] ∧ QString.trimmed message ≠ []
          ∧ (getMessages s channelName).getLast? ≠ some message := by
  constructor
  · intro hchanged
    by_contra hnot
    apply hchanged
    by_cases hc : channelName = []
    · rw [addMessage_rejected s now channelName message (Or.inl hc)]
    · by_cases hm : QString.trimmed message = []
      · rw [addMessage_rejected s now channelName message (Or.inr hm)]
      · by_cases hlast : (getMessages s channelName).getLast? = some message
        · rw [addMessage_suppressed s now channelName message hc hm hlast]
        · exact absurd ⟨hc, hm, hlast⟩ hnot
  · rintro ⟨hc, hm, hlast⟩
    rw [(addMessage_appended s now channelName message hc hm hlast).2.2]
    exact enforceMaximum_append_ne _ _ hlast

theorem addMessage_unchanged_state (s : ChatHistoryManager) (now : Nat)
    (channelName message : QString)
    (h : getMessages (addMessage s now channelName message) channelName
      = getMessages s channelName) :
    addMessage s now channelName message = s := by
  by_cases hc : channelName = []
  · exact addMessage_rejected s now channelName message (Or.inl hc)
  · by_cases hm : QString.trimmed message = []
    · exact addMessage_rejected s now channelName message (Or.inr hm)
    · by_cases hlast : (getMessages s channelName).getLast? = some message
      · exact addMessage_suppressed s now channelName message hc hm hlast
      · exact absurd h
          ((getMessages_addMessage_changed_iff s now channelName message).2 ⟨hc, hm, hlast⟩)

theorem trimmed_ne_nil_of_ne_nil (message : QString) (h : QString.trimmed message ≠ []) :
    message ≠ [] := by
  intro hnil
  apply h
  rw [hnil]
  rfl

theorem reachable_entries_valid (s : ChatHistoryManager)
    (hs : Reachable NoWhitespaceOnlyStrings s) (channelName : QString) :
    ∀ m ∈ getMessages s channelName, QString.trimmed m ≠ [] := by
  refine reachable_pred (fun log => ∀ m ∈ log, QString.trimmed m ≠ []) NoWhitespaceOnlyStrings
    (by simp) ?_ ?_ s hs channelName
  · intro log message hvalid hlog
    unfold logAfterAdd
    split
    · exact hlog
    · rw [enforceMaximum_eq_drop]
      intro m hm
      rcases List.mem_append.1 (List.mem_of_mem_drop hm) with h | h
      · exact hlog m h
      · rw [List.mem_singleton] at h
        rw [h]
        exact hvalid
  · intro file hfile doc hdoc it hit
    rw [loadMessages_eq, enforceMaximum_eq_drop, storedStrings_eq_nonEmptyStrings]
    intro m hm
    exact hfile doc hdoc it hit m (List.mem_of_mem_drop hm)

/-! ## The debounce timer over a burst of calls -/

theorem elapse_not_due (s : ChatHistoryManager) (now upTo : Nat)
    (htimer : s.debouncedSaveTimer_ = armedAt now) (h : upTo < now + 5000) :
    elapse s upTo = (s, []) := by
  unfold elapse
  have hdue : (s.debouncedSaveTimer_.active && decide (s.debouncedSaveTimer_.deadline ≤ upTo))
      = false := by
    rw [htimer]
    simp only [armedAt, Bool.true_and, decide_eq_false_iff_not]
    omega
  simp only [hdue, Bool.false_eq_true, if_false]

theorem elapse_due (s : ChatHistoryManager) (now upTo : Nat)
    (htimer : s.debouncedSaveTimer_ = armedAt now) (hconnected : s.debouncedSaveConnected_ = true)
    (h : now + 5000 ≤ upTo) :
    (elapse s upTo).2 = [now + 5000] := by
  unfold elapse
  have hdue : (s.debouncedSaveTimer_.active && decide (s.debouncedSaveTimer_.deadline ≤ upTo))
      = true := by
    rw [htimer]
    simp only [armedAt, Bool.true_and, decide_eq_true_eq]
    exact h
  have hshot : s.debouncedSaveTimer_.singleShot = true := by rw [htimer]; rfl
  have hdeadline : s.debouncedSaveTimer_.deadline = now + 5000 := by rw [htimer]; rfl
  simp only [hdue, hshot, hconnected, if_true]
  exact congrArg (fun d => [d]) hdeadline

theorem afterCalls_armed (horizon : Nat) :
    ∀ (rest : List Call) (s : ChatHistoryManager) (previous : Call),
      s.debouncedSaveTimer_ = armedAt previous.time → s.debouncedSaveConnected_ = true →
      List.Chain closelySpaced previous rest → allAppend s rest →
      (afterCalls s rest horizon).2
        = if lastTime previous rest + 5000 ≤ horizon then [lastTime previous rest + 5000]
          else [] := by
  intro rest
  induction rest with
  | nil =>
    intro s previous htimer hconnected _ _
    simp only [afterCalls, lastTime]
    split
    · rename_i h
      exact elapse_due s previous.time horizon htimer hconnected h
    · rename_i h
      rw [elapse_not_due s previous.time horizon htimer (by omega)]
  | cons call rest ih =>
    intro s previous htimer hconnected hchain happ
    rw [List.chain_cons] at hchain
    obtain ⟨hspaced, hchain⟩ := hchain
    have hwait : elapse s call.time = (s, []) :=
      elapse_not_due s previous.time call.time htimer hspaced.2
    simp only [allAppend, hwait] at happ
    obtain ⟨⟨⟨hc, hm⟩, hlast⟩, hrest⟩ := happ
    have hadd := addMessage_appended s call.time call.channelName call.message hc hm hlast
    simp only [afterCalls, hwait, List.nil_append, lastTime]
    exact ih _ call hadd.1 hadd.2.1 hchain hrest

/-! ## The highlighting loop of `paint` -/

theorem indexOfFrom_sound (needle : QString) :
    ∀ (rest : QString) (p q : Nat), QString.indexOfFrom needle rest p = some q →
      p ≤ q ∧ ∃ post, rest.drop (q - p) = needle ++ post := by
  intro rest
  induction rest with
  | nil =>
    intro p q h
    unfold QString.indexOfFrom at h
    split at h
    · rename_i hstart
      obtain ⟨mid, post, hsplit, hmid⟩ := (startsWithFolded_iff id [] needle).1 hstart
      rw [List.map_id, List.map_id] at hmid
      cases h
      refine ⟨Nat.le_refl _, post, ?_⟩
      rw [Nat.sub_self, List.drop_zero, ← hmid]
      exact hsplit
    · exact absurd h (by simp)
  | cons c cs ih =>
    intro p q h
    unfold QString.indexOfFrom at h
    split at h
    · rename_i hstart
      obtain ⟨mid, post, hsplit, hmid⟩ := (startsWithFolded_iff id (c :: cs) needle).1 hstart
      rw [List.map_id, List.map_id] at hmid
      cases h
      refine ⟨Nat.le_refl _, post, ?_⟩
      rw [Nat.sub_self, List.drop_zero, ← hmid]
      exact hsplit
    · obtain ⟨hle, post, hpost⟩ := ih (p + 1) q h
      refine ⟨by omega, post, ?_⟩
      have hq : q - p = (q - (p + 1)) + 1 := by omega
      rw [hq, List.drop_succ_cons]
      exact hpost

theorem indexOf_sound (hay needle : QString) (start q : Nat)
    (h : QString.indexOf hay needle start = some q) :
    start ≤ q ∧ ∃ post, hay.drop q = needle ++ post := by
  unfold QString.indexOf at h
  split at h
  · obtain ⟨hle, post, hpost⟩ := indexOfFrom_sound needle _ _ _ h
    refine ⟨hle, post, ?_⟩
    rw [List.drop_drop] at hpost
    have hq : start + (q - start) = q := by omega
    rw [hq] at hpost
    exact hpost
  · exact absurd h (by simp)

theorem indexOf_toLower (lower : Char → Char) (d s : QString) (start q : Nat)
    (hs : s ≠ [])
    (h : QString.indexOf (QString.toLower lower d) (QString.toLower lower s) start = some q) :
    start ≤ q ∧ q + s.length ≤ d.length
      ∧ (QString.mid d q s.length).length = s.length
      ∧ (QString.mid d q s.length).map lower = s.map lower := by
  have hpos : 0 < s.length := List.length_pos.2 hs
  obtain ⟨hle, post, hpost⟩ := indexOf_sound _ _ _ _ h
  unfold QString.toLower at hpost
  rw [← List.map_drop] at hpost
  have hlen := congrArg List.length hpost
  simp only [List.length_map, List.length_drop, List.length_append] at hlen
  have hbound : q + s.length ≤ d.length := by omega
  refine ⟨hle, hbound, ?_, ?_⟩
  · unfold QString.mid
    rw [List.length_take, List.length_drop]
    omega
  · unfold QString.mid
    rw [List.map_take, hpost, List.take_append_of_le_length (by simp)]
    have hl : s.length = (List.map lower s).length := by simp
    rw [hl, List.take_length]

theorem drop_split (d : QString) (pos q n : Nat) (hle : pos ≤ q) :
    QString.mid d pos (q - pos) ++ (QString.mid d q n ++ d.drop (q + n)) = d.drop pos := by
  unfold QString.mid
  have h1 : d.drop (q + n) = (d.drop q).drop n := by
    rw [List.drop_drop]
  have h2 : d.drop q = (d.drop pos).drop (q - pos) := by
    rw [List.drop_drop]
    congr 1
    omega
  rw [h1, List.take_append_drop, h2, List.take_append_drop]

theorem paintLoop_spec (lower : Char → Char) (advance : QString → Int) (d s : QString)
    (hs : s ≠ []) :
    ∀ (fuel pos : Nat) (x : Int), d.length - pos ≤ fuel →
      ∃ segments,
        paintLoop advance d (QString.toLower lower d) (QString.toLower lower s) s.length
            fuel pos x = some segments
          ∧ (segments.map Segment.text).flatten = d.drop pos
          ∧ ∀ segment ∈ segments, segment.highlighted = true →
              segment.text.length = s.length ∧ segment.text.map lower = s.map lower := by
  have hpos : 0 < s.length := List.length_pos.2 hs
  intro fuel
  induction fuel with
  | zero =>
    intro pos x hfuel
    have hge : ¬ pos < d.length := by omega
    refine ⟨[], ?_, ?_, ?_⟩
    · simp only [paintLoop, hge, if_false]
    · rw [List.drop_eq_nil_of_le (by omega)]
      rfl
    · intro segment hmem
      simp at hmem
  | succ fuel ih =>
    intro pos x hfuel
    by_cases hlt : pos < d.length
    · cases hfind : QString.indexOf (QString.toLower lower d) (QString.toLower lower s) pos with
      | none =>
        refine ⟨[⟨false, x, d.drop pos⟩], ?_, ?_, ?_⟩
        · simp only [paintLoop, hlt, if_true, hfind]
        · simp
        · intro segment hmem hhigh
          rw [List.mem_singleton] at hmem
          rw [hmem] at hhigh
          simp at hhigh
      | some matchPos =>
        obtain ⟨hle, hbound, hmlen, hmfold⟩ := indexOf_toLower lower d s pos matchPos hs hfind
        obtain ⟨rest, hrest, hconcat, hhigh⟩ :=
          ih (matchPos + s.length)
            ((if matchPos > pos then x + advance (QString.mid d pos (matchPos - pos)) else x)
              + advance (QString.mid d matchPos s.length))
            (by omega)
        refine ⟨(if matchPos > pos then [⟨false, x, QString.mid d pos (matchPos - pos)⟩]
            else [])
          ++ ⟨true, if matchPos > pos then x + advance (QString.mid d pos (matchPos - pos))
            else x, QString.mid d matchPos s.length⟩ :: rest, ?_, ?_, ?_⟩
        · simp only [paintLoop, hlt, if_true, hfind, hrest]
        · rw [List.map_append, List.flatten_append, List.map_cons, List.flatten_cons, hconcat]
          rw [← drop_split d pos matchPos s.length hle]
          congr 1
          by_cases hgt : matchPos > pos
          · simp [hgt]
          · have heq : matchPos - pos = 0 := by omega
            simp [hgt, QString.mid, heq]
        · intro segment hmem hsh
          rcases List.mem_append.1 hmem with hbefore | hrestmem
          · by_cases hgt : matchPos > pos
            · rw [if_pos hgt, List.mem_singleton] at hbefore
              rw [hbefore] at hsh
              simp at hsh
            · rw [if_neg hgt] at hbefore
              simp at hbefore
          · rcases List.mem_cons.1 hrestmem with hmatched | hlater
            · rw [hmatched]
              exact ⟨hmlen, hmfold⟩
            · exact hhigh segment hlater hsh
    · refine ⟨[], ?_, ?_, ?_⟩
      · simp only [paintLoop, hlt, if_false]
      · rw [List.drop_eq_nil_of_le (by omega)]
        rfl
      · intro segment hmem
        simp at hmem

/-! ## Properties -/

/-- C1. Capacity invariant: in every state reachable from the empty store by
calls of `addMessage` (any arguments, any time) and calls of `load` (any file
contents), every channel's log has at most `MAX_HISTORY_PER_CHANNEL` = 5000
entries. -/
theorem capacity_invariant (s : ChatHistoryManager) (hs : Reachable (fun _ => True) s)
    (channelName : QString) :
    (getMessages s channelName).length ≤ MAX_HISTORY_PER_CHANNEL
      ∧ MAX_HISTORY_PER_CHANNEL = 5000 := by
  exact ⟨reachable_length_le _ s hs channelName, rfl⟩

/-- Witness of C1: the state after one load and two appends. -/
theorem capacity_invariant_witness :
    (getMessages
        (addMessage (addMessage (load (ChatHistoryManager.initial []) (.data duplicateDocument))
          10 "c".toList "x".toList) 20 "d".toList "y".toList)
        "c".toList).length ≤ MAX_HISTORY_PER_CHANNEL
      ∧ MAX_HISTORY_PER_CHANNEL = 5000 :=
  capacity_invariant _
    (Reachable.addMessage 20 _ _ (Reachable.addMessage 10 _ _
      (Reachable.load _ trivial (Reachable.initial [])))) _

/-- C2, as stated, fails: loading a document whose array for `c` is `a, a`
into the empty store leaves two adjacent identical entries in the log of `c`. -/
theorem no_consecutive_duplicates_counterexample :
    ¬ ∀ s, Reachable (fun _ => True) s →
        ∀ channelName, (getMessages s channelName).Chain' (· ≠ ·) := by
  intro h
  have hc := h _ (Reachable.load (.data duplicateDocument) trivial (Reachable.initial []))
    "c".toList
  have hlog : getMessages (load (ChatHistoryManager.initial []) (.data duplicateDocument))
      "c".toList = ["a".toList, "a".toList] := by decide
  rw [hlog] at hc
  simp at hc

/-- C2, amended. In every state reachable from the empty store by calls of
`addMessage` (any arguments) and calls of `load` on files in which no channel
array has two adjacent equal entries among its non-empty strings, no channel's
log contains two adjacent identical entries. -/
theorem no_consecutive_duplicates (s : ChatHistoryManager)
    (hs : Reachable NoAdjacentDuplicates s) (channelName : QString) :
    (getMessages s channelName).Chain' (· ≠ ·) := by
  refine reachable_pred (fun log => log.Chain' (· ≠ ·)) _ List.chain'_nil
    (fun log message _ h => chain_logAfterAdd log message h) ?_ s hs channelName
  intro file hfile doc hdoc it hit
  rw [loadMessages_eq]
  exact chain_enforceMaximum _ (hfile doc hdoc it hit)

/-- Witness of the amended C2: a load of `sampleDocument` followed by an append. -/
theorem no_consecutive_duplicates_witness :
    (getMessages
      (addMessage (load (ChatHistoryManager.initial []) (.data sampleDocument))
        10 "c".toList "a".toList) "c".toList).Chain' (· ≠ ·) :=
  no_consecutive_duplicates _
    (Reachable.addMessage 10 _ _
      (Reachable.load (.data sampleDocument)
        (by
          intro doc hdoc it hit
          cases hdoc
          have hch : documentChannels sampleDocument
              = [("c".toList,
                  .array [.string "a".toList, .number 7, .string "b".toList, .string [],
                    .string "a".toList])] := rfl
          rw [hch, List.mem_singleton] at hit
          subst hit
          have hstored : storedStrings
              (QJsonValue.array [.string "a".toList, .number 7, .string "b".toList, .string [],
                .string "a".toList]).toArray = ["a".toList, "b".toList, "a".toList] := rfl
          rw [hstored]
          simp)
        (Reachable.initial [])))
    _

/-- C3. Consecutive-duplicate suppression: for a non-empty channel and a
message that is non-empty after trimming, a second `addMessage` of the same
message right after the first leaves the state (hence every log) as the first
call left it; and on a channel whose log is empty, adding `m`, then a valid
`m'` different from `m`, then `m` again yields the log `m, m', m`, in which `m`
occurs twice. -/
theorem consecutive_duplicate_suppression (s : ChatHistoryManager) (t₁ t₂ t₃ : Nat)
    (c m m' : QString) (hc : c ≠ []) (hm : QString.trimmed m ≠ []) :
    addMessage (addMessage s t₁ c m) t₂ c m = addMessage s t₁ c m
      ∧ getMessages (addMessage (addMessage s t₁ c m) t₂ c m) c
          = getMessages (addMessage s t₁ c m) c
      ∧ (getMessages s c = [] → QString.trimmed m' ≠ [] → m' ≠ m →
          getMessages (addMessage (addMessage (addMessage s t₁ c m) t₂ c m') t₃ c m) c
              = [m, m', m]
            ∧ List.count m [m, m', m] = 2) := by
  have hlast : (getMessages (addMessage s t₁ c m) c).getLast? = some m := by
    rw [getMessages_addMessage_self s t₁ c m hc hm]
    exact logAfterAdd_getLast? _ _
  have hstate : addMessage (addMessage s t₁ c m) t₂ c m = addMessage s t₁ c m := by
    have hne : QHash.value (addMessage s t₁ c m).history_ c ≠ [] := by
      intro h
      unfold getMessages at hlast
      rw [h] at hlast
      simp at hlast
    have hcond : (c.isEmpty || (QString.trimmed m).isEmpty) = false := by
      simp [List.isEmpty_iff, hc, hm]
    generalize hs₁ : addMessage s t₁ c m = s₁ at hlast hne
    unfold getMessages at hlast
    unfold addMessage
    simp only [hcond, Bool.false_eq_true, if_false]
    rw [getLast?_test, QHash.subscript_snd, QHash.subscript_fst_of_ne_nil _ _ hne]
    simp only [hlast, decide_True, if_true]
  refine ⟨hstate, by rw [hstate], ?_⟩
  intro hempty hm' hne
  have h1 : getMessages (addMessage s t₁ c m) c = [m] := by
    rw [getMessages_addMessage_self s t₁ c m hc hm, hempty]
    simp only [logAfterAdd, List.getLast?_nil, List.nil_append]
    rw [if_neg (by simp)]
    exact enforceMaximum_of_le _ (by simp [MAX_HISTORY_PER_CHANNEL])
  have h2 : getMessages (addMessage (addMessage s t₁ c m) t₂ c m') c = [m, m'] := by
    rw [getMessages_addMessage_self _ t₂ c m' hc hm', h1]
    simp only [logAfterAdd, List.getLast?_singleton, Option.some.injEq]
    rw [if_neg (fun h => hne h.symm)]
    exact enforceMaximum_of_le _ (by simp [MAX_HISTORY_PER_CHANNEL])
  constructor
  · rw [getMessages_addMessage_self _ t₃ c m hc hm, h2]
    have hl : [m, m'].getLast? = some m' := rfl
    simp only [logAfterAdd, hl, Option.some.injEq]
    rw [if_neg hne]
    exact enforceMaximum_of_le _ (by simp [MAX_HISTORY_PER_CHANNEL])
  · simp [List.count_cons, hne]

/-- Witness of C3 on the channel `c` with the messages `hi` and `yo`. -/
theorem consecutive_duplicate_suppression_witness :
    addMessage (addMessage (ChatHistoryManager.initial []) 0 "c".toList "hi".toList) 1
        "c".toList "hi".toList
      = addMessage (ChatHistoryManager.initial []) 0 "c".toList "hi".toList
    ∧ getMessages
        (addMessage
          (addMessage (addMessage (ChatHistoryManager.initial []) 0 "c".toList "hi".toList) 1
            "c".toList "yo".toList) 2 "c".toList "hi".toList) "c".toList
      = ["hi".toList, "yo".toList, "hi".toList] :=
  have h := consecutive_duplicate_suppression (ChatHistoryManager.initial []) 0 1 2
    "c".toList "hi".toList "yo".toList (by decide) (by decide)
  ⟨h.1, (h.2.2 (by decide) (by decide) (by decide)).1⟩

/-- C4. With an empty search text `getFiltered` returns exactly what
`getMessages` returns, for every state and every channel, present or absent. -/
theorem getFiltered_empty_searchText (fold : Char → Char) (s : ChatHistoryManager)
    (channelName : QString) :
    getFiltered fold s channelName [] = getMessages s channelName := by
  rfl

/-- C5. Filter membership and deduplication: for a non-empty search text the
result of `getFiltered` has no two equal elements, and a string is in the result
exactly when it is an entry of the channel's log that contains the search text
as a substring up to case folding (so entries that differ only in case are both
kept). On the log `hi, bye, hi` the search text `hi` gives `hi` (with the case
folding of ASCII letters). -/
theorem filter_membership_dedup (fold : Char → Char) (s : ChatHistoryManager)
    (channelName searchText : QString) (ht : searchText ≠ []) :
    (getFiltered fold s channelName searchText).Nodup
      ∧ (∀ x, x ∈ getFiltered fold s channelName searchText ↔
          x ∈ getMessages s channelName
            ∧ ∃ pre mid post, x = pre ++ (mid ++ post)
                ∧ mid.map fold = searchText.map fold)
      ∧ (getMessages s channelName = ["hi".toList, "bye".toList, "hi".toList] →
          getFiltered Char.toLower s channelName "hi".toList = ["hi".toList]) := by
  rw [getFiltered_eq_filterLog fold s channelName searchText ht, filterLog_eq_lastOccurrences]
  refine ⟨nodup_lastOccurrences _ _, ?_, ?_⟩
  · intro x
    rw [mem_lastOccurrences, contains_iff]
  · intro hlog
    rw [getFiltered_eq_filterLog Char.toLower s channelName _ (by decide), hlog]
    decide

/-- Witness of C5: the log `Hi, bye, hi` loaded from a document, searched for `HI`. -/
theorem filter_membership_dedup_witness :
    (getFiltered Char.toLower
        (addMessage (addMessage (addMessage (ChatHistoryManager.initial []) 0 "c".toList
          "Hi".toList) 1 "c".toList "bye".toList) 2 "c".toList "hi".toList)
        "c".toList "HI".toList).Nodup
      ∧ getFiltered Char.toLower
        (addMessage (addMessage (addMessage (ChatHistoryManager.initial []) 0 "c".toList
          "Hi".toList) 1 "c".toList "bye".toList) 2 "c".toList "hi".toList)
        "c".toList "HI".toList = ["Hi".toList, "hi".toList] :=
  ⟨(filter_membership_dedup Char.toLower _ "c".toList "HI".toList (by decide)).1, by decide⟩

/-- C6. Filter order: for a non-empty search text the result of `getFiltered`
is the subsequence of the log that keeps, of every matching text, only its last
occurrence; hence it is a sublist of the log, and whenever `a` stands before
`b` in the result, the log splits as `x ++ a :: y ++ b :: z` where `a` does not
occur after that position and `b` does not occur in `z`: the last occurrence of
`a` in the log is before the last occurrence of `b`. -/
theorem filter_order (fold : Char → Char) (s : ChatHistoryManager)
    (channelName searchText : QString) (ht : searchText ≠ []) :
    getFiltered fold s channelName searchText
        = lastOccurrences (fun m => QString.contains fold m searchText)
            (getMessages s channelName)
      ∧ (getFiltered fold s channelName searchText).Sublist (getMessages s channelName)
      ∧ ∀ (a b : QString) (front mid back : QStringList),
          getFiltered fold s channelName searchText = front ++ a :: (mid ++ b :: back) →
          ∃ x y z, getMessages s channelName = x ++ a :: (y ++ b :: z)
            ∧ a ∉ y ++ b :: z ∧ b ∉ z := by
  rw [getFiltered_eq_filterLog fold s channelName searchText ht, filterLog_eq_lastOccurrences]
  exact ⟨rfl, sublist_lastOccurrences _ _, lastOccurrences_order _ _⟩

/-- Witness of C6: the log `bo, ao, bo, x` searched for `O`. -/
theorem filter_order_witness :
    getFiltered Char.toLower
        (addMessage (addMessage (addMessage (addMessage (ChatHistoryManager.initial []) 0
          "c".toList "bo".toList) 1 "c".toList "ao".toList) 2 "c".toList "bo".toList) 3
          "c".toList "x".toList)
        "c".toList "O".toList = ["ao".toList, "bo".toList]
      ∧ (getFiltered Char.toLower
        (addMessage (addMessage (addMessage (addMessage (ChatHistoryManager.initial []) 0
          "c".toList "bo".toList) 1 "c".toList "ao".toList) 2 "c".toList "bo".toList) 3
          "c".toList "x".toList)
        "c".toList "O".toList).Sublist
        (getMessages
          (addMessage (addMessage (addMessage (addMessage (ChatHistoryManager.initial []) 0
            "c".toList "bo".toList) 1 "c".toList "ao".toList) 2 "c".toList "bo".toList) 3
            "c".toList "x".toList) "c".toList) :=
  ⟨by decide, (filter_order Char.toLower _ "c".toList "O".toList (by decide)).2.1⟩

/-- C7. Round trip: for any state of the manager (reached from the empty store
by calls of `addMessage` and `load`) in which every log has at most
`MAX_HISTORY_PER_CHANNEL` entries, the document that `save` writes has version
1, and loading it into the empty store yields, for every channel, the same log
in the same order. -/
theorem round_trip (s : ChatHistoryManager) (path : QString) (file : HistoryFile)
    (hs : Reachable (fun _ => True) s)
    (hcap : ∀ c, (getMessages s c).length ≤ MAX_HISTORY_PER_CHANNEL) :
    save s true true file = .data (saveDocument s)
      ∧ documentVersion (saveDocument s) = 1
      ∧ ∀ c, getMessages (load (ChatHistoryManager.initial path) (save s true true file)) c
          = getMessages s c :=
  ⟨rfl, rfl, fun c =>
    getMessages_round_trip s path c (hcap c) (reachable_entries_ne_nil _ s hs c)⟩

/-- Witness of C7: the state after a load of `sampleDocument` and three appends
on two channels. -/
theorem round_trip_witness :
    getMessages
        (load (ChatHistoryManager.initial [])
          (save
            (addMessage (addMessage (addMessage
              (load (ChatHistoryManager.initial []) (.data sampleDocument)) 0 "c".toList
              "hi".toList) 1 "d".toList " x ".toList) 2 "c".toList "yo".toList)
            true true .missing)) "c".toList
      = getMessages
          (addMessage (addMessage (addMessage
            (load (ChatHistoryManager.initial []) (.data sampleDocument)) 0 "c".toList
            "hi".toList) 1 "d".toList " x ".toList) 2 "c".toList "yo".toList) "c".toList :=
  (round_trip _ [] .missing
    (Reachable.addMessage 2 _ _ (Reachable.addMessage 1 _ _
      (Reachable.addMessage 0 _ _
        (Reachable.load (.data sampleDocument) trivial (Reachable.initial [])))))
    (reachable_length_le (fun _ => True) _
      (Reachable.addMessage 2 _ _ (Reachable.addMessage 1 _ _
        (Reachable.addMessage 0 _ _
          (Reachable.load (.data sampleDocument) trivial (Reachable.initial []))))))).2.2
    "c".toList

/-- C8, as stated, fails when the channel is the empty string: the call is
rejected, and the log of that channel stays empty instead of holding the
message. -/
theorem eviction_order_counterexample :
    ¬ ∀ (s : ChatHistoryManager) (c : QString) (calls : List (Nat × QString)),
        getMessages s c = [] →
        (∀ m ∈ calls.map Prod.snd, QString.trimmed m ≠ []) →
        (calls.map Prod.snd).Chain' (· ≠ ·) →
        getMessages (addMessages s c calls) c
          = (calls.map Prod.snd).drop
              ((calls.map Prod.snd).length
                - min (calls.map Prod.snd).length MAX_HISTORY_PER_CHANNEL) := by
  intro h
  have hc := h (ChatHistoryManager.initial []) [] [(0, "a".toList)] (by decide) (by decide)
    (by simp)
  revert hc
  decide

/-- C8, amended. On a channel with a non-empty name whose log is empty, calling
`addMessage` once per element of a list `ms` of valid messages without two
adjacent equal elements leaves the log equal to the last
`min(|ms|, MAX_HISTORY_PER_CHANNEL)` elements of `ms`, in order; with
`MAX_HISTORY_PER_CHANNEL + 1` messages the log is `ms` without its first element. -/
theorem eviction_order (s : ChatHistoryManager) (c : QString) (calls : List (Nat × QString))
    (hc : c ≠ []) (hempty : getMessages s c = [])
    (hvalid : ∀ m ∈ calls.map Prod.snd, QString.trimmed m ≠ [])
    (hchain : (calls.map Prod.snd).Chain' (· ≠ ·)) :
    getMessages (addMessages s c calls) c
        = (calls.map Prod.snd).drop
            ((calls.map Prod.snd).length
              - min (calls.map Prod.snd).length MAX_HISTORY_PER_CHANNEL)
      ∧ (getMessages (addMessages s c calls) c).length
          = min (calls.map Prod.snd).length MAX_HISTORY_PER_CHANNEL
      ∧ ((calls.map Prod.snd).length = MAX_HISTORY_PER_CHANNEL + 1 →
          getMessages (addMessages s c calls) c = (calls.map Prod.snd).tail) := by
  have hlog := addMessages_log s c hc hempty calls hvalid hchain
  have hsub : (calls.map Prod.snd).length
      - min (calls.map Prod.snd).length MAX_HISTORY_PER_CHANNEL
      = (calls.map Prod.snd).length - MAX_HISTORY_PER_CHANNEL := by omega
  rw [hsub, hlog]
  refine ⟨rfl, ?_, ?_⟩
  · rw [List.length_drop]
    omega
  · intro hlen
    rw [hlen, Nat.add_sub_cancel_left, List.drop_one]

/-- Witness of the amended C8: three messages on the channel `c`. -/
theorem eviction_order_witness :
    getMessages
        (addMessages (ChatHistoryManager.initial []) "c".toList
          [(0, "a".toList), (1, "b".toList), (2, "a".toList)]) "c".toList
      = ["a".toList, "b".toList, "a".toList] :=
  (eviction_order (ChatHistoryManager.initial []) "c".toList
    [(0, "a".toList), (1, "b".toList), (2, "a".toList)] (by decide) (by decide) (by decide)
    (by simp)).1

/-- C9. Version rejection is atomic: when the root object of the document has
a `version` member that is not the number 1, `load` returns the state exactly
as it was, whatever the `channels` member holds; in particular the history is
unchanged, and a load into the empty store leaves it empty. -/
theorem version_rejection_atomic (s : ChatHistoryManager) (root : QJsonObject)
    (version : QJsonValue) (hv : root.lookup "version".toList = some version)
    (hne : version ≠ .number 1) :
    load s (.data (.object root)) = s := by
  have hsub : QJsonObject.subscript root "version".toList = version := by
    unfold QJsonObject.subscript
    rw [hv]
  have hint : (QJsonObject.subscript root "version".toList).toInt 0 ≠ 1 := by
    rw [hsub]
    exact fun h => hne (toInt_eq_one _ h)
  unfold load
  simp only [QJsonDocument.isObject, QJsonDocument.toObject, Bool.not_true,
    Bool.false_eq_true, if_false]
  rw [if_pos (bne_iff_ne.mpr hint)]

/-- Witness of C9: a document of version 2 with a channel, loaded into the
empty store. -/
theorem version_rejection_atomic_witness :
    load (ChatHistoryManager.initial [])
        (.data (.object [("version".toList, .number 2),
          ("channels".toList, .object [("c".toList, .array [.string "a".toList])])]))
      = ChatHistoryManager.initial [] :=
  version_rejection_atomic _ _ (.number 2) rfl
    (by intro h; injection h with h; revert h; norm_num)

/-- C10. Rejected append is a no-op: when the channel name is empty, or the
message is empty or consists only of whitespace, `addMessage` returns the state
exactly as it was: every log, the set of channel entries and both timers
(with the connected flag) are unchanged. -/
theorem rejected_append_noop (s : ChatHistoryManager) (now : Nat)
    (channelName message : QString)
    (h : channelName = [] ∨ ∀ ch ∈ message, QChar.isSpace ch = true) :
    addMessage s now channelName message = s
      ∧ (addMessage s now channelName message).history_.keys = s.history_.keys
      ∧ (addMessage s now channelName message).debouncedSaveTimer_ = s.debouncedSaveTimer_
      ∧ ∀ key, getMessages (addMessage s now channelName message) key = getMessages s key := by
  have hs : addMessage s now channelName message = s :=
    addMessage_rejected s now channelName message
      (h.imp id (trimmed_of_all_space message))
  rw [hs]
  exact ⟨rfl, rfl, rfl, fun _ => rfl⟩

/-- Witness of C10: a whitespace-only message on the channel `c`. -/
theorem rejected_append_noop_witness :
    addMessage (ChatHistoryManager.initial []) 5 "c".toList " \t\n".toList
      = ChatHistoryManager.initial [] :=
  (rejected_append_noop (ChatHistoryManager.initial []) 5 "c".toList " \t\n".toList
    (Or.inr (by decide))).1

/-- C11, as stated, fails: a channel name made of one blank is not rejected;
adding `a` to it on the empty store makes its log one entry long. -/
theorem whitespace_channel_counterexample :
    ¬ ∀ (s : ChatHistoryManager) (now : Nat) (channelName message : QString),
        (∀ ch ∈ channelName, QChar.isSpace ch = true) →
        ∀ key, (getMessages (addMessage s now channelName message) key).length
          = (getMessages s key).length := by
  intro h
  have hc := h (ChatHistoryManager.initial []) 0 " ".toList "a".toList (by decide) " ".toList
  revert hc
  decide

/-- C11, amended. Of the channel names that consist only of whitespace, only the
empty one is rejected: with the empty channel name `addMessage` leaves the
length of every log unchanged, whatever the message; with a non-empty name made
of whitespace and a message that is non-empty after trimming, the log of that
channel ends with the message afterwards, and it has changed unless the message
was already its last entry. -/
theorem whitespace_channel (s : ChatHistoryManager) (now : Nat)
    (channelName message : QString) :
    (∀ key, (getMessages (addMessage s now [] message) key).length
        = (getMessages s key).length)
      ∧ (channelName ≠ [] → (∀ ch ∈ channelName, QChar.isSpace ch = true) →
          QString.trimmed message ≠ [] →
          (getMessages (addMessage s now channelName message) channelName).getLast?
              = some message
            ∧ ((getMessages s channelName).getLast? ≠ some message →
                getMessages (addMessage s now channelName message) channelName
                  ≠ getMessages s channelName)) := by
  constructor
  · intro key
    rw [addMessage_rejected s now [] message (Or.inl rfl)]
  · intro hc _ hm
    have hlast : (getMessages (addMessage s now channelName message) channelName).getLast?
        = some message := by
      rw [getMessages_addMessage_self s now channelName message hc hm]
      exact logAfterAdd_getLast? _ _
    refine ⟨hlast, ?_⟩
    intro hold heq
    rw [heq] at hlast
    exact hold hlast

/-- Witness of the amended C11: the channel name of one blank and the message `a`. -/
theorem whitespace_channel_witness :
    (getMessages (addMessage (ChatHistoryManager.initial []) 0 " ".toList "a".toList)
        " ".toList).getLast? = some "a".toList :=
  ((whitespace_channel (ChatHistoryManager.initial []) 0 " ".toList "a".toList).2
    (by decide) (by decide) (by decide)).1

/-- C12. Load postcondition per channel: for a document of version 1 whose
`channels` object (one member per key) holds the array `a` under the key `k`,
after `load` into any state the log of `k` is the last
`min(n, MAX_HISTORY_PER_CHANNEL)` of the `n` elements of `a` that are non-empty
strings, in their order; the other elements of `a` are dropped. -/
theorem load_postcondition (s : ChatHistoryManager) (root channels : QJsonObject)
    (k : QString) (a : List QJsonValue)
    (hversion : root.lookup "version".toList = some (.number 1))
    (hchannels : root.lookup "channels".toList = some (.object channels))
    (hkeys : (channels.map Prod.fst).Nodup)
    (hk : (k, QJsonValue.array a) ∈ channels) :
    getMessages (load s (.data (.object root))) k
      = (nonEmptyStrings a).drop
          ((nonEmptyStrings a).length
            - min (nonEmptyStrings a).length MAX_HISTORY_PER_CHANNEL) := by
  rw [load_accepted s root hversion, documentChannels_of_lookup root channels hchannels]
  unfold getMessages
  simp only []
  rw [value_foldl_insert_of_mem (fun v => loadMessages v.toArray) k _ channels _ hkeys hk]
  show loadMessages a = _
  have hsub : (nonEmptyStrings a).length
      - min (nonEmptyStrings a).length MAX_HISTORY_PER_CHANNEL
      = (nonEmptyStrings a).length - MAX_HISTORY_PER_CHANNEL := by omega
  rw [hsub, loadMessages_eq, enforceMaximum_eq_drop, storedStrings_eq_nonEmptyStrings]

/-- Witness of C12: `sampleDocument`, whose array holds a number and an empty
string between the strings. -/
theorem load_postcondition_witness :
    getMessages (load (ChatHistoryManager.initial []) (.data sampleDocument)) "c".toList
      = ["a".toList, "b".toList, "a".toList] :=
  load_postcondition (ChatHistoryManager.initial [])
    [("version".toList, .number 1),
      ("channels".toList,
        .object [("c".toList,
          .array [.string "a".toList, .number 7, .string "b".toList, .string [],
            .string "a".toList])])]
    [("c".toList,
      .array [.string "a".toList, .number 7, .string "b".toList, .string [],
        .string "a".toList])]
    "c".toList
    [.string "a".toList, .number 7, .string "b".toList, .string [], .string "a".toList]
    rfl rfl (by simp) (by simp)

/-- C13, as stated, fails: after `hi` was added to the channel `c`, loading a
version-1 document without channels leaves the log of `c` as it was, not empty. -/
theorem load_bulk_replace_counterexample :
    ¬ ∀ (s : ChatHistoryManager) (root channels : QJsonObject) (k : QString),
        root.lookup "version".toList = some (.number 1) →
        root.lookup "channels".toList = some (.object channels) →
        k ∉ channels.map Prod.fst →
        getMessages (load s (.data (.object root))) k = [] := by
  intro h
  have hc := h (addMessage (ChatHistoryManager.initial []) 0 "c".toList "hi".toList)
    [("version".toList, .number 1), ("channels".toList, .object [])] [] "c".toList rfl rfl
    (by simp)
  revert hc
  decide

/-- C13, amended. `load` replaces the logs key by key: for a version-1 document
and a channel key that is absent from its `channels` object, the log after
`load` is the log the state held before; it is empty exactly when it was empty
before, as on the empty store. -/
theorem load_keeps_absent_channels (s : ChatHistoryManager) (root channels : QJsonObject)
    (k : QString)
    (hversion : root.lookup "version".toList = some (.number 1))
    (hchannels : root.lookup "channels".toList = some (.object channels))
    (hk : k ∉ channels.map Prod.fst) :
    getMessages (load s (.data (.object root))) k = getMessages s k
      ∧ (getMessages (load s (.data (.object root))) k = [] ↔ getMessages s k = []) := by
  have hlog : getMessages (load s (.data (.object root))) k = getMessages s k := by
    rw [load_accepted s root hversion, documentChannels_of_lookup root channels hchannels]
    unfold getMessages
    simp only []
    exact value_foldl_insert_of_not_mem (fun v => loadMessages v.toArray) k channels _ hk
  exact ⟨hlog, by rw [hlog]⟩

/-- Witness of the amended C13: the channel `d` is absent from `sampleDocument`. -/
theorem load_keeps_absent_channels_witness :
    getMessages
        (load (addMessage (ChatHistoryManager.initial []) 0 "d".toList "hi".toList)
          (.data sampleDocument)) "d".toList
      = getMessages (addMessage (ChatHistoryManager.initial []) 0 "d".toList "hi".toList)
          "d".toList :=
  (load_keeps_absent_channels
    (addMessage (ChatHistoryManager.initial []) 0 "d".toList "hi".toList)
    [("version".toList, .number 1),
      ("channels".toList,
        .object [("c".toList,
          .array [.string "a".toList, .number 7, .string "b".toList, .string [],
            .string "a".toList])])]
    [("c".toList,
      .array [.string "a".toList, .number 7, .string "b".toList, .string [],
        .string "a".toList])]
    "d".toList rfl rfl (by decide)).1

/-- C14, as stated, fails: of two calls with the same valid arguments at the
times 0 and 1000, the second is suppressed as a duplicate and does not re-arm
the timer; the single flush happens at 5000, not at 6000. -/
theorem debounce_coalescing_counterexample :
    ¬ ∀ (s : ChatHistoryManager) (first : Call) (rest : List Call) (horizon : Nat),
        validArguments first → (∀ call ∈ rest, validArguments call) →
        List.Chain closelySpaced first rest →
        lastTime first rest + 5000 ≤ horizon →
        (burst s first rest horizon).2 = [lastTime first rest + 5000] := by
  intro h
  have hc := h (ChatHistoryManager.initial []) ⟨0, "c".toList, "a".toList⟩
    [⟨1000, "c".toList, "a".toList⟩] 10000
    ⟨by decide, by decide⟩
    (by
      intro call hcall
      rw [List.mem_singleton] at hcall
      subst hcall
      exact ⟨by decide, by decide⟩)
    (List.Chain.cons ⟨by decide, by decide⟩ List.Chain.nil)
    (by decide)
  revert hc
  decide

/-- C14, amended. For a burst of one or more calls of `addMessage` at times
`t1 ≤ ... ≤ tN`, each less than 5000 ms after the previous one and each
appending to its channel's log (valid arguments, not suppressed as a
consecutive duplicate), the debounce timer makes exactly one flush, at
`tN + 5000`: observed up to any time from `tN + 5000` on the flushes are that
single one, and observed up to any earlier time there is none. -/
theorem debounce_coalescing (s : ChatHistoryManager) (first : Call) (rest : List Call)
    (horizon : Nat) (hspaced : List.Chain closelySpaced first rest)
    (hfirst : appends s first)
    (hrest : allAppend (addMessage s first.time first.channelName first.message) rest) :
    (lastTime first rest + 5000 ≤ horizon →
        (burst s first rest horizon).2 = [lastTime first rest + 5000])
      ∧ (horizon < lastTime first rest + 5000 → (burst s first rest horizon).2 = []) := by
  obtain ⟨⟨hc, hm⟩, hlast⟩ := hfirst
  have hadd := addMessage_appended s first.time first.channelName first.message hc hm hlast
  have hrun := afterCalls_armed horizon rest _ first hadd.1 hadd.2.1 hspaced hrest
  unfold burst
  rw [hrun]
  constructor
  · intro h
    rw [if_pos h]
  · intro h
    rw [if_neg (by omega)]

/-- Witness of the amended C14: the messages `a`, `b`, `a` at the times 0, 1000
and 3000 give one flush, at 8000. -/
theorem debounce_coalescing_witness :
    (burst (ChatHistoryManager.initial []) ⟨0, "c".toList, "a".toList⟩
        [⟨1000, "c".toList, "b".toList⟩, ⟨3000, "c".toList, "a".toList⟩] 60000).2 = [8000] :=
  (debounce_coalescing (ChatHistoryManager.initial []) ⟨0, "c".toList, "a".toList⟩
    [⟨1000, "c".toList, "b".toList⟩, ⟨3000, "c".toList, "a".toList⟩] 60000
    (List.Chain.cons ⟨by decide, by decide⟩
      (List.Chain.cons ⟨by decide, by decide⟩ List.Chain.nil))
    ⟨⟨by decide, by decide⟩, by decide⟩
    ⟨⟨⟨by decide, by decide⟩, by decide⟩, ⟨⟨by decide, by decide⟩, by decide⟩, trivial⟩).1
    (by decide)

/-- C15. Re-arming follows state change: a call of `addMessage` that changes the
log of its channel leaves the debounce timer single shot and running, with the
interval 5000 ms and the deadline 5000 ms after the call, whatever was pending;
a call that leaves the log unchanged (rejected, or suppressed as a consecutive
duplicate) leaves the timer, its deadline and the connected flag as they were.
The log changes exactly when the channel name is non-empty, the message is
non-empty after trimming and the message is not the last entry. -/
theorem rearming_follows_state_change (s : ChatHistoryManager) (now : Nat)
    (channelName message : QString) :
    (getMessages (addMessage s now channelName message) channelName
          ≠ getMessages s channelName →
        (addMessage s now channelName message).debouncedSaveTimer_
          = { interval := 5000, singleShot := true, active := true, deadline := now + 5000 })
      ∧ (getMessages (addMessage s now channelName message) channelName
          = getMessages s channelName →
        (addMessage s now channelName message).debouncedSaveTimer_ = s.debouncedSaveTimer_
          ∧ (addMessage s now channelName message).debouncedSaveConnected_
              = s.debouncedSaveConnected_)
      ∧ (getMessages (addMessage s now channelName message) channelName
            ≠ getMessages s channelName
          ↔ channelName ≠ [] ∧ QString.trimmed message ≠ []
              ∧ (getMessages s channelName).getLast? ≠ some message) := by
  refine ⟨?_, ?_, getMessages_addMessage_changed_iff s now channelName message⟩
  · intro hchanged
    obtain ⟨hc, hm, hlast⟩ :=
      (getMessages_addMessage_changed_iff s now channelName message).1 hchanged
    exact (addMessage_appended s now channelName message hc hm hlast).1
  · intro hsame
    rw [addMessage_unchanged_state s now channelName message hsame]
    exact ⟨rfl, rfl⟩

/-- Witness of C15: an append at time 7 arms the timer for 5007; the duplicate
at time 9 leaves that deadline. -/
theorem rearming_follows_state_change_witness :
    (addMessage (ChatHistoryManager.initial []) 7 "c".toList "hi".toList).debouncedSaveTimer_
        = { interval := 5000, singleShot := true, active := true, deadline := 5007 }
      ∧ (addMessage (addMessage (ChatHistoryManager.initial []) 7 "c".toList "hi".toList) 9
          "c".toList "hi".toList).debouncedSaveTimer_
        = (addMessage (ChatHistoryManager.initial []) 7 "c".toList "hi".toList).debouncedSaveTimer_ :=
  ⟨(rearming_follows_state_change (ChatHistoryManager.initial []) 7 "c".toList
      "hi".toList).1 (by decide),
    by decide⟩

/-- C16, as stated, fails: for a version-1 document without a `channels`
member `load` logs no warning at all. -/
theorem missing_channels_counterexample :
    ¬ ∀ root : QJsonObject,
        root.lookup "version".toList = some (.number 1) →
        (root.lookup "channels".toList = none
          ∨ ∃ v, root.lookup "channels".toList = some v ∧ ∀ members, v ≠ .object members) →
        loadWarning (.data (.object root)) = some .invalidFormat := by
  intro h
  have hc := h [("version".toList, .number 1)] rfl (Or.inl rfl)
  revert hc
  decide

/-- C16, amended. For a document of version 1 whose `channels` member is
missing, or is present but not an object, `load` succeeds as a load of zero
channels: it logs no warning, iterates over no channel, and returns the state
as it was. -/
theorem missing_channels_loads_nothing (s : ChatHistoryManager) (root : QJsonObject)
    (hversion : root.lookup "version".toList = some (.number 1))
    (hchannels : root.lookup "channels".toList = none
      ∨ ∃ v, root.lookup "channels".toList = some v ∧ ∀ members, v ≠ .object members) :
    loadWarning (.data (.object root)) = none
      ∧ documentChannels (.object root) = []
      ∧ load s (.data (.object root)) = s := by
  have hsub : QJsonObject.subscript root "version".toList = .number 1 := by
    unfold QJsonObject.subscript
    rw [hversion]
  have hint : ((QJsonObject.subscript root "version".toList).toInt 0 != 1) = false := by
    rw [hsub, toInt_number_one]
    rfl
  have hnone : documentChannels (.object root) = [] := by
    unfold documentChannels QJsonObject.subscript
    simp only [QJsonDocument.toObject]
    rcases hchannels with h | ⟨v, h, hv⟩
    · rw [h]
      rfl
    · rw [h]
      cases v with
      | object members => exact absurd rfl (hv members)
      | _ => rfl
  refine ⟨?_, hnone, ?_⟩
  · unfold loadWarning
    simp only [QJsonDocument.isObject, QJsonDocument.toObject, Bool.not_true,
      Bool.false_eq_true, if_false]
    rw [hint]
    rfl
  · rw [load_accepted s root hversion, hnone]
    rfl

/-- Witness of the amended C16: a document whose `channels` member is an array. -/
theorem missing_channels_loads_nothing_witness :
    load (addMessage (ChatHistoryManager.initial []) 0 "c".toList "hi".toList)
        (.data (.object [("version".toList, .number 1),
          ("channels".toList, .array [.string "a".toList])]))
      = addMessage (ChatHistoryManager.initial []) 0 "c".toList "hi".toList :=
  (missing_channels_loads_nothing _
    [("version".toList, .number 1), ("channels".toList, .array [.string "a".toList])] rfl
    (Or.inr ⟨.array [.string "a".toList], rfl, fun members h => by cases h⟩)).2.2

/-- C17, as stated, fails: loading a document whose array for `c` holds one
blank leaves a whitespace-only entry in the log of `c`. -/
theorem entry_validity_counterexample :
    ¬ ∀ s, Reachable (fun _ => True) s →
        ∀ channelName, ∀ m ∈ getMessages s channelName, m ≠ [] ∧ QString.trimmed m ≠ [] := by
  intro h
  have hc := h _ (Reachable.load (.data blankDocument) trivial (Reachable.initial []))
    "c".toList " ".toList (by decide)
  revert hc
  decide

/-- C17, amended. In every state reachable from the empty store by calls of
`addMessage` and calls of `load` on arbitrary files, every entry of every log is
a non-empty string; when the loaded files hold no whitespace-only string, every
entry is moreover non-empty after trimming. -/
theorem entry_validity (s : ChatHistoryManager) (channelName : QString) :
    (Reachable (fun _ => True) s → ∀ m ∈ getMessages s channelName, m ≠ [])
      ∧ (Reachable NoWhitespaceOnlyStrings s →
          ∀ m ∈ getMessages s channelName, m ≠ [] ∧ QString.trimmed m ≠ []) := by
  constructor
  · intro hs
    exact reachable_entries_ne_nil _ s hs channelName
  · intro hs m hm
    have hvalid := reachable_entries_valid s hs channelName m hm
    exact ⟨trimmed_ne_nil_of_ne_nil m hvalid, hvalid⟩

/-- Witness of the amended C17: the entry kept from `blankDocument` is not empty. -/
theorem entry_validity_witness :
    ∀ m ∈ getMessages (load (ChatHistoryManager.initial []) (.data blankDocument)) "c".toList,
      m ≠ [] :=
  (entry_validity (load (ChatHistoryManager.initial []) (.data blankDocument)) "c".toList).1
    (Reachable.load (.data blankDocument) trivial (Reachable.initial []))

/-- C18, as stated, fails: on the log `a, b` the call with the message `b` is
suppressed, and `a, b` is not a suffix of `a, b, b`. -/
theorem append_only_order_counterexample :
    ¬ ∀ (s : ChatHistoryManager) (now : Nat) (c m : QString),
        ∃ front, getMessages s c ++ [m] = front ++ getMessages (addMessage s now c m) c := by
  intro h
  obtain ⟨front, hfront⟩ :=
    h (addMessage (addMessage (ChatHistoryManager.initial []) 0 "c".toList "a".toList) 1
      "c".toList "b".toList) 2 "c".toList "b".toList
  have hbefore : getMessages
      (addMessage (addMessage (ChatHistoryManager.initial []) 0 "c".toList "a".toList) 1
        "c".toList "b".toList) "c".toList = ["a".toList, "b".toList] := by decide
  have hafter : getMessages
      (addMessage
        (addMessage (addMessage (ChatHistoryManager.initial []) 0 "c".toList "a".toList) 1
          "c".toList "b".toList) 2 "c".toList "b".toList) "c".toList
      = ["a".toList, "b".toList] := by decide
  rw [hbefore, hafter] at hfront
  have hlen := congrArg List.length hfront
  simp only [List.length_append, List.length_cons, List.length_nil] at hlen
  match front, hfront, hlen with
  | [x], hfront, _ =>
    simp only [List.cons_append, List.nil_append, List.cons.injEq] at hfront
    exact absurd hfront.2.1 (by decide)
  | [], _, hlen => simp at hlen
  | _ :: _ :: _, _, hlen => simp at hlen

/-- C18, amended. After `addMessage(c, m)` the log of `c` is either the old log
unchanged, or a suffix of the old log followed by `m`: the old log with `m`
appended and the first `length + 1 - MAX_HISTORY_PER_CHANNEL` entries removed.
Nothing is removed elsewhere, reordered or altered. -/
theorem append_only_order (s : ChatHistoryManager) (now : Nat) (c m : QString) :
    getMessages (addMessage s now c m) c = getMessages s c
      ∨ (getMessages (addMessage s now c m) c
            = (getMessages s c ++ [m]).drop
                ((getMessages s c).length + 1 - MAX_HISTORY_PER_CHANNEL)
          ∧ ∃ front, getMessages s c ++ [m] = front ++ getMessages (addMessage s now c m) c
              ∧ front.length = (getMessages s c).length + 1 - MAX_HISTORY_PER_CHANNEL) := by
  by_cases hsame : getMessages (addMessage s now c m) c = getMessages s c
  · exact Or.inl hsame
  · right
    obtain ⟨hc, hm, hlast⟩ := (getMessages_addMessage_changed_iff s now c m).1 hsame
    have hlog := (addMessage_appended s now c m hc hm hlast).2.2
    rw [enforceMaximum_eq_drop, List.length_append, List.length_singleton] at hlog
    refine ⟨hlog, (getMessages s c ++ [m]).take
      ((getMessages s c).length + 1 - MAX_HISTORY_PER_CHANNEL), ?_, ?_⟩
    · rw [hlog, List.take_append_drop]
    · rw [List.length_take, List.length_append, List.length_singleton]
      omega

/-- C19. Read-your-writes: for a non-empty channel name and a message that is
non-empty after trimming, right after `addMessage` the log of the channel is
non-empty and its last entry is the message itself, character for character;
and when the previous last entry differs from the message in any way (if only
in case or in surrounding whitespace) the message is appended: the log is the
old log followed by the message, cut to the maximum from the front. -/
theorem read_your_writes (s : ChatHistoryManager) (now : Nat) (c m : QString)
    (hc : c ≠ []) (hm : QString.trimmed m ≠ []) :
    getMessages (addMessage s now c m) c ≠ []
      ∧ (getMessages (addMessage s now c m) c).getLast? = some m
      ∧ (∀ l, (getMessages s c).getLast? = some l → l ≠ m →
          getMessages (addMessage s now c m) c
            = (getMessages s c ++ [m]).drop
                ((getMessages s c).length + 1 - MAX_HISTORY_PER_CHANNEL)) := by
  have hlast : (getMessages (addMessage s now c m) c).getLast? = some m := by
    rw [getMessages_addMessage_self s now c m hc hm]
    exact logAfterAdd_getLast? _ _
  refine ⟨?_, hlast, ?_⟩
  · intro hnil
    rw [hnil] at hlast
    simp at hlast
  · intro l hl hne
    have hnot : (getMessages s c).getLast? ≠ some m := by
      rw [hl]
      intro h
      exact hne (Option.some.inj h)
    rw [(addMessage_appended s now c m hc hm hnot).2.2, enforceMaximum_eq_drop,
      List.length_append, List.length_singleton]

/-- Witness of C19: after `Hi`, the messages `hi` and then ` hi` are appended. -/
theorem read_your_writes_witness :
    getMessages
        (addMessage (addMessage (addMessage (ChatHistoryManager.initial []) 0 "c".toList
          "Hi".toList) 1 "c".toList "hi".toList) 2 "c".toList " hi".toList) "c".toList
      = ["Hi".toList, "hi".toList, " hi".toList]
    ∧ (getMessages
        (addMessage (addMessage (addMessage (ChatHistoryManager.initial []) 0 "c".toList
          "Hi".toList) 1 "c".toList "hi".toList) 2 "c".toList " hi".toList)
        "c".toList).getLast? = some " hi".toList :=
  ⟨by decide,
    (read_your_writes
      (addMessage (addMessage (ChatHistoryManager.initial []) 0 "c".toList "Hi".toList) 1
        "c".toList "hi".toList) 2 "c".toList " hi".toList (by decide) (by decide)).2.1⟩

/-- C20. Channel isolation with exact keys: for channel names `c` and `c'`
that differ as strings (if only in case or in whitespace), `addMessage(c, m)`
leaves what `getMessages(c')` and `getFiltered(c', t)` return unchanged. Both
reads are const methods using the const lookup `value`: they are functions of
the state that produce no new state. -/
theorem channel_isolation (fold : Char → Char) (s : ChatHistoryManager) (now : Nat)
    (c c' m searchText : QString) (hne : c' ≠ c) :
    getMessages (addMessage s now c m) c' = getMessages s c'
      ∧ getFiltered fold (addMessage s now c m) c' searchText
          = getFiltered fold s c' searchText := by
  have hlog := getMessages_addMessage_ne s now c m c' hne
  refine ⟨hlog, ?_⟩
  unfold getMessages at hlog
  unfold getFiltered
  rw [hlog]

/-- Witness of C20: the channels `Chan` and `chan` are distinct keys. -/
theorem channel_isolation_witness :
    getMessages
        (addMessage (addMessage (ChatHistoryManager.initial []) 0 "chan".toList "x".toList) 1
          "Chan".toList "y".toList) "chan".toList
      = getMessages (addMessage (ChatHistoryManager.initial []) 0 "chan".toList "x".toList)
          "chan".toList :=
  (channel_isolation Char.toLower
    (addMessage (ChatHistoryManager.initial []) 0 "chan".toList "x".toList) 1
    "Chan".toList "chan".toList "y".toList [] (by decide)).1

/-- C21. Highlight segmentation in `MessageHistoryItem::paint`: for every
displayed text `d` and every non-empty search term `s`, lower-casing being a
per-character map, the scanning loop ends within one iteration per character of
`d` (and with any larger supply), and the segments it draws (text before a
match, the matched slice, the remaining text) concatenate in drawing order to
`d`; every highlighted segment has the length of `s` and equals `s` after
lower-casing. -/
theorem highlight_segmentation (lower : Char → Char) (advance : QString → Int)
    (d s : QString) (left : Int) (hs : s ≠ []) :
    (∃ segments, paint lower advance d s left = some segments
        ∧ (segments.map Segment.text).flatten = d
        ∧ ∀ segment ∈ segments, segment.highlighted = true →
            segment.text.length = s.length ∧ segment.text.map lower = s.map lower)
      ∧ ∀ fuel, d.length ≤ fuel →
          (paintLoop advance d (QString.toLower lower d) (QString.toLower lower s) s.length
            fuel 0 left).isSome = true := by
  have hcond : s.isEmpty = false := by
    cases s with
    | nil => exact absurd rfl hs
    | cons c cs => rfl
  constructor
  · obtain ⟨segments, hrun, hconcat, hhigh⟩ :=
      paintLoop_spec lower advance d s hs d.length 0 left (by omega)
    refine ⟨segments, ?_, hconcat, hhigh⟩
    unfold paint
    simp only [hcond, Bool.false_eq_true, if_false]
    exact hrun
  · intro fuel hfuel
    obtain ⟨segments, hrun, -, -⟩ := paintLoop_spec lower advance d s hs fuel 0 left (by omega)
    rw [hrun]
    rfl

/-- Witness of C21: the text `say Hi, hi` with the search term `HI`, every
character being one unit wide. -/
theorem highlight_segmentation_witness :
    paint Char.toLower (fun text => text.length) "say Hi, hi".toList "HI".toList 4
        = some [⟨false, 4, "say ".toList⟩, ⟨true, 8, "Hi".toList⟩, ⟨false, 10, ", ".toList⟩,
            ⟨true, 12, "hi".toList⟩]
      ∧ ∃ segments,
          paint Char.toLower (fun text => text.length) "say Hi, hi".toList "HI".toList 4
            = some segments
          ∧ (segments.map Segment.text).flatten = "say Hi, hi".toList :=
  ⟨by decide,
    let ⟨segments, hrun, hconcat, _⟩ :=
      (highlight_segmentation Char.toLower (fun text => text.length) "say Hi, hi".toList
        "HI".toList 4 (by decide)).1
    ⟨segments, hrun, hconcat⟩⟩

end chatterino
